import Mathlib

/-!
Verification of the GASmith geometric-algebra library (C++ headers under
`include/ga/`).  The development shallowly embeds the blade-level kernel
(`basis.h`, `signature.h`, `ops/blade.h`), the multivector layer
(`storageDense.h`, `multivector.h`, `ops/geometric.h`, `ops/involutions.h`,
`ops/dual.h`, `ops/wedge.h`, `ops/inner.h`) and the rotor layer (`rotor.h`).

Conventions of the embedding:
* `BladeMask` is `uint8_t` in the source; masks are embedded as `ℕ`, and the
  points where the source performs a `static_cast<BladeMask>` (truncation of a
  wider value to 8 bits) are embedded as `% 256`.
* C++ `int` values are embedded as `ℤ`.  Loop counters `for (int i = 0; i < k)`
  are embedded as iteration over `List.range k.toNat` (a non-positive bound
  yields no iterations, matching the source).
* `std::array<T, 8>` fields are embedded as `List` of length 8, read through
  `List.getD` (all reads in the source are bounds-guarded).
* Scalar coefficients (float/double in the source) are embedded as the elements
  of an arbitrary commutative ring with decidable equality (exact arithmetic
  idealizing the source's float); the rotor layer, which uses
  `std::cos`, `std::sin` and `std::sqrt`, is instantiated at `ℝ`.
* C++ functions that `throw` are embedded as `Option`/`Except` valued
  functions; the pointer-identity comparison of `Algebra*` is embedded as
  structural equality of the `Algebra` descriptor, following the design note
  of the specification that the two are interchangeable.
-/

namespace GASmith

/-- Population count of an 8-bit value: `Blade::getGrade` in `basis.h` calls
`std::popcount` on the (zero-extended) `uint8_t` mask, so counting the low
8 bits is exact for every representable mask. -/
def popcount (n : ℕ) : ℕ :=
  ((List.range 8).filter (fun i => n.testBit i)).length

/-- Canonical basis blade (`struct Blade` in `basis.h`): a bitmask of axes and
an orientation sign, with sign `0` denoting the zero blade. -/
structure Blade where
  mask : ℕ
  sign : ℤ
  deriving DecidableEq, Repr

/-- `Blade::getGrade`: grade of a basis blade is the popcount of its mask. -/
def getGrade (mask : ℕ) : ℕ := popcount mask

/-- `Blade::hasAxis`: bounds-guarded test of bit `i` of `mask` (the source
checks `0 <= i < 8`; the embedding uses `ℕ`, so only the upper bound
remains). -/
def hasAxis (mask : ℕ) (i : ℕ) : Bool :=
  if i < 8 then (mask &&& (1 <<< i)) != 0 else false

/-- `Blade::getBasis`: the mask of a single axis, `0` when out of range. -/
def getBasis (axisIndex : ℕ) : ℕ :=
  if axisIndex < 8 then 1 <<< axisIndex else 0

/-- `Blade::doesOverlap`. -/
def doesOverlap (a b : ℕ) : Bool := (a &&& b) != 0

/-- `Blade::isZero`: the zero blade is marked by sign `0`. -/
def Blade.isZero (b : Blade) : Bool := b.sign == 0

/-- `Blade::isScalarBasis`: empty mask with a nonzero sign. -/
def Blade.isScalarBasis (b : Blade) : Bool := b.mask == 0 && b.sign != 0

/-- Metric signature (`struct Signature` in `signature.h`): counts `p`, `q`,
`r`, the diagonal metric array, handedness, and the cached axis count. -/
structure Signature where
  p : ℤ
  q : ℤ
  r : ℤ
  metric : List ℤ
  isRightHanded : Bool
  dimensionsUsed : ℤ
  deriving DecidableEq, Repr

/-- `Signature::metricLookup`: diagonal lookup with a bounds guard returning
the sentinel `-2` out of range (the source also checks `i, j >= 0`, which is
automatic for `ℕ` indices). -/
def Signature.metricLookup (s : Signature) (i j : ℕ) : ℤ :=
  if i < 8 ∧ j < 8 then (if i = j then s.metric.getD i 0 else 0) else -2

/-- `Signature::getSign`. -/
def Signature.getSign (s : Signature) (i : ℕ) : ℤ := s.metricLookup i i

/-- `Signature::isDegenerate`: the source tests `r_ > 0`. -/
def Signature.isDegenerate (s : Signature) : Bool := decide (0 < s.r)

/-- `Signature::validateMasks`: the three axis masks must be pairwise
disjoint. -/
def validateMasks (pM qM rM : List Bool) : Bool :=
  (List.range 8).all (fun i =>
    !((pM.getD i false && qM.getD i false) ||
      (pM.getD i false && rM.getD i false) ||
      (qM.getD i false && rM.getD i false)))

/-- `Signature::buildMetric(p, q, r)` together with the `(p, q, r)`
constructor: fails (the constructor throws) when `p + q + r > 8`; otherwise
the metric holds `p.toNat` ones, then `q.toNat` minus-ones, then zeros
(the array is zero-initialised, and each loop body runs `max 0 count`
times, advancing one shared write index). -/
def Signature.ofCounts (p q r : ℤ) (rh : Bool) : Option Signature :=
  if p + q + r > 8 then none
  else
    some { p := p, q := q, r := r
           metric := (List.range 8).map (fun i =>
             if i < p.toNat then 1 else if i < p.toNat + q.toNat then -1 else 0)
           isRightHanded := rh
           dimensionsUsed := p + q + r }

/-- `Signature::buildMetric(pMask, qMask, rMask)` together with the mask
constructor: rejects overlapping masks, then for each axis writes the metric
entry for whichever mask holds the axis.  The source increments `p_` in all
three branches (`++p_` appears verbatim in the qMask and rMask branches), so
`q_` and `r_` stay `0`; the embedding reproduces this. -/
def Signature.ofMasks (pM qM rM : List Bool) (rh : Bool) : Option Signature :=
  if !validateMasks pM qM rM then none
  else
    let st := (List.range 8).foldl
      (fun (st : List ℤ × ℤ × ℤ) i =>
        let st := if pM.getD i false then (st.1.set i 1, st.2.1 + 1, st.2.2 + 1) else st
        let st := if qM.getD i false then (st.1.set i (-1), st.2.1 + 1, st.2.2 + 1) else st
        let st := if rM.getD i false then (st.1.set i 0, st.2.1 + 1, st.2.2 + 1) else st
        st)
      (List.replicate 8 0, 0, 0)
    some { p := st.2.1, q := 0, r := 0
           metric := st.1, isRightHanded := rh, dimensionsUsed := st.2.2 }

/-- Swap-count loop of `geometricProductBlade` (`ops/blade.h`): for every axis
of `a` below `dims`, count the axes of `b` with strictly smaller index.  The
two `% 256` are the `static_cast<BladeMask>` of `lowerMask` and `lowerInB`. -/
def gpSwapCount (am bm : ℕ) (dims : ℕ) : ℕ :=
  ∑ i ∈ Finset.range dims,
    if hasAxis am i then popcount ((bm &&& (((1 <<< i) - 1) % 256)) % 256) else 0

/-- Metric-contraction loop of `geometricProductBlade`: walk the axis indices
in order; on a shared axis with `g(i) = 0` return `none` (the source returns
the zero blade immediately), otherwise multiply the running sign by `g(i)`. -/
def contractionLoop (sig : Signature) (overlap : ℕ) : List ℕ → ℤ → Option ℤ
  | [], sign => some sign
  | i :: rest, sign =>
    if hasAxis overlap i then
      if sig.getSign i = 0 then none
      else contractionLoop sig overlap rest (sign * sig.getSign i)
    else contractionLoop sig overlap rest sign

/-- `ga::ops::geometricProductBlade` (`ops/blade.h`): Clifford product of two
basis blades under a signature, via swap-count parity, metric contraction on
the overlap and the symmetric-difference mask. -/
def geometricProductBlade (a b : Blade) (sig : Signature) : Blade :=
  if a.isZero || b.isZero then ⟨0, 0⟩
  else if a.isScalarBasis then ⟨b.mask, a.sign * b.sign⟩
  else if b.isScalarBasis then ⟨a.mask, a.sign * b.sign⟩
  else
    let dims := sig.dimensionsUsed.toNat
    let swapCount := gpSwapCount a.mask b.mask dims
    let sign := a.sign * b.sign * (if swapCount % 2 = 0 then 1 else -1)
    let overlap := (a.mask &&& b.mask) % 256
    match contractionLoop sig overlap (List.range dims) sign with
    | none => ⟨0, 0⟩
    | some sign =>
      let resultMask := (a.mask ^^^ b.mask) % 256
      if sign = 0 then ⟨0, 0⟩
      else if resultMask = 0 then ⟨0, sign⟩
      else ⟨resultMask, sign⟩

/-- Core merge loop of the sorted-axis-list variant of the blade product (the
second `geometricProductBlade`, in the unnamed header): walk both sorted axis
lists; contract matching axes through `g`, emit the smaller axis otherwise,
flipping the sign by the parity of `remainingA` when an axis of `b` passes the
rest of `a`.  The state is `(running sign, result mask)`. -/
def mergeWalk (sig : Signature) : List ℕ → List ℕ → ℤ → ℕ → ℤ × ℕ
  | [], listB, sign, m => (sign, listB.foldl (fun acc j => acc ||| getBasis j) m)
  | ia :: restA, [], sign, m =>
    (sign, (ia :: restA).foldl (fun acc i => acc ||| getBasis i) m)
  | ia :: restA, jb :: restB, sign, m =>
    if ia = jb then
      mergeWalk sig restA restB (sign * sig.getSign ia) m
    else if ia < jb then
      mergeWalk sig restA (jb :: restB) sign (m ||| getBasis ia)
    else
      let remainingA := (ia :: restA).length
      mergeWalk sig (ia :: restA) restB
        (if remainingA % 2 ≠ 0 then -sign else sign) (m ||| getBasis jb)
  termination_by la lb _ _ => la.length + lb.length

/-- The sorted-axis-list implementation of the blade geometric product
(`geometricProductBlade` of the unnamed header `part_005`): extract both axis
index lists in increasing order and run the Clifford merge. -/
def gpbMerge (a b : Blade) (sig : Signature) : Blade :=
  if a.isZero || b.isZero then ⟨0, 0⟩
  else if a.isScalarBasis then ⟨b.mask, a.sign * b.sign⟩
  else if b.isScalarBasis then ⟨a.mask, a.sign * b.sign⟩
  else
    let listA := (List.range 8).filter (fun i => hasAxis a.mask i)
    let listB := (List.range 8).filter (fun i => hasAxis b.mask i)
    let res := mergeWalk sig listA listB (a.sign * b.sign) 0
    if res.1 = 0 then ⟨0, 0⟩
    else if res.2 = 0 then ⟨0, res.1⟩
    else ⟨res.2, res.1⟩

/-- `Blade::combineBlade` (`basis.h`): exterior-only combination — zero on
overlap, otherwise symmetric difference with the inversion-parity sign. -/
def combineBlade (a b : Blade) : Blade :=
  if a.isZero || b.isZero then ⟨0, 0⟩
  else if a.isScalarBasis then ⟨b.mask, a.sign * b.sign⟩
  else if b.isScalarBasis then ⟨a.mask, a.sign * b.sign⟩
  else if doesOverlap a.mask b.mask then ⟨0, 0⟩
  else
    let resultMask := (a.mask ^^^ b.mask) % 256
    let swaps : ℕ := ∑ j ∈ Finset.range 8,
      if hasAxis b.mask j then ∑ i ∈ Finset.Ico (j + 1) 8,
        (if hasAxis a.mask i then 1 else 0) else 0
    let paritySign : ℤ := if swaps % 2 = 0 then 1 else -1
    ⟨resultMask, a.sign * b.sign * paritySign⟩

/-- One bubble pass of `Blade::makeBlade` (`basis.h`), carrying the current
left element: swap adjacent out-of-order entries counting swaps, and detect a
duplicate the moment two equal entries become adjacent (the source returns the
zero blade there). -/
def bpassGo (c : ℤ) : List ℤ → Option (List ℤ × ℕ)
  | [] => some ([c], 0)
  | b :: rest =>
    if c > b then
      match bpassGo c rest with
      | none => none
      | some (l, s) => some (b :: l, s + 1)
    else if c = b then none
    else
      match bpassGo b rest with
      | none => none
      | some (l, s) => some (c :: l, s)

/-- A full bubble pass over a list. -/
def bpass (l : List ℤ) : Option (List ℤ × ℕ) :=
  match l with
  | [] => some ([], 0)
  | a :: t => bpassGo a t

/-- Outer loop of `Blade::makeBlade`: the source runs `numBasis - 1` passes,
pass `i` covering the first `numBasis - i` entries.  Equivalently: one pass
over the current prefix, whose last element is then in final position, and the
remaining passes run on the prefix without it.  The first argument is the
number of outer iterations still to run. -/
def bubbleGo : ℕ → List ℤ → Option (List ℤ × ℕ)
  | 0, l => some (l, 0)
  | k + 1, l =>
    match bpass l with
    | none => none
    | some (l', s) =>
      match l' with
      | [] => some ([], s)
      | x :: xs =>
        match bubbleGo k (x :: xs).dropLast with
        | none => none
        | some (l'', s') => some (l'' ++ [(x :: xs).getLast (by simp)], s + s')

/-- `Blade::makeBlade` (`basis.h`): canonical blade from an axis-index list.
Empty list gives the unit scalar basis, more than 8 entries gives the zero
blade; otherwise bubble sort with swap counting (zero blade on a duplicate),
sign from swap parity, and mask the OR of `1 << idx` over the sorted entries
(each OR operand passes through the `static_cast<BladeMask>`, hence
`% 256`). -/
def makeBlade (l : List ℤ) : Blade :=
  if l.length = 0 then ⟨0, 1⟩
  else if l.length > 8 then ⟨0, 0⟩
  else
    match bubbleGo (l.length - 1) l with
    | none => ⟨0, 0⟩
    | some (sorted, swaps) =>
      ⟨sorted.foldl (fun m idx => m ||| ((1 <<< idx.toNat) % 256)) 0,
       if swaps % 2 = 0 then 1 else -1⟩

/-- Fallback signature used only to strip the `Option` from constructor calls
at concrete, known-good arguments. -/
def sigFallback : Signature := ⟨0, 0, 0, [], true, 0⟩

/-- The signature `(2, 0, 0)`: two positive axes. -/
def sig200 : Signature := (Signature.ofCounts 2 0 0 true).getD sigFallback

/-- The all-false axis mask. -/
def noMask : List Bool := List.replicate 8 false

/-- Axis mask holding only axis 0. -/
def axis0Mask : List Bool :=
  [true, false, false, false, false, false, false, false]

/-- C2, counterexample part: the bitmask swap-count implementation and the
sorted-axis-list merge-walk implementation of the blade geometric product
disagree.  For `a = e1 ∧ e2` (mask `0b11`) times `b = e1` (mask `0b01`) in the
Euclidean signature `(2,0,0)`, the swap-count product yields `-e2` (the
correct Clifford value) while the merge walk yields `+e2`: its matching-axis
branch contracts `e_i e_i` without flipping the sign for the remaining axes of
`a` the contracted axis has to pass, contradicting the merge's own pass-through
comment. -/
theorem gpbMerge_ne_geometricProductBlade :
    geometricProductBlade ⟨3, 1⟩ ⟨1, 1⟩ sig200 = ⟨2, -1⟩ ∧
    gpbMerge ⟨3, 1⟩ ⟨1, 1⟩ sig200 = ⟨2, 1⟩ ∧
    geometricProductBlade ⟨3, 1⟩ ⟨1, 1⟩ sig200 ≠ gpbMerge ⟨3, 1⟩ ⟨1, 1⟩ sig200 := by
  have h2 : gpbMerge ⟨3, 1⟩ ⟨1, 1⟩ sig200 = ⟨2, 1⟩ := by
    simp [gpbMerge, Blade.isZero, Blade.isScalarBasis, sig200, Signature.ofCounts,
      sigFallback, mergeWalk, Signature.getSign, Signature.metricLookup, hasAxis,
      getBasis, List.range_succ]
    decide
  have h1 : geometricProductBlade ⟨3, 1⟩ ⟨1, 1⟩ sig200 = ⟨2, -1⟩ := by decide
  refine ⟨h1, h2, ?_⟩
  rw [h1, h2]
  decide

/-- C3: the mask-based metric constructor mis-counts the axis classes.  With
`rMask = {axis 0}` (and empty `pMask`, `qMask`) the built signature correctly
assigns `g(0) = 0`, but `isDegenerate()` reports `false`, because
`buildMetric(pMask, qMask, rMask)` increments `p_` (not `q_` or `r_`) in all
three branches, leaving `r_ = 0` — contradicting the source's own comment that
a signature with a null axis is degenerate. -/
theorem ofMasks_isDegenerate_bug :
    (Signature.ofMasks noMask noMask axis0Mask true).map Signature.isDegenerate =
      some false ∧
    (Signature.ofMasks noMask noMask axis0Mask true).map (fun s => s.getSign 0) =
      some 0 ∧
    axis0Mask.getD 0 false = true := by
  decide

/-- Algebra descriptor (`algebra.h`): a signature plus its cached axis count
(`dimensions` is synchronised with `signature.dimensionsUsed()`). -/
structure Algebra where
  signature : Signature
  dimensions : ℤ
  deriving DecidableEq, Repr

/-- The `Algebra(const Signature&)` constructor. -/
def Algebra.ofSignature (sig : Signature) : Algebra := ⟨sig, sig.dimensionsUsed⟩

section MultivectorLayer

variable {K : Type} [CommRing K] [DecidableEq K]

/-- Multivector (`multivector.h`): an algebra reference (null pointer embeds
as `none`) plus dense coefficients indexed by blade mask (`storageDense.h`
zero-initialises the used prefix; the embedding carries a total coefficient
function).  Scalars are the elements of `K`. -/
structure Multivector (K : Type) where
  alg : Option Algebra
  coeffs : ℕ → K

/-- `Multivector::component`: read the coefficient stored at a mask. -/
def Multivector.component (A : Multivector K) (m : ℕ) : K := A.coeffs m

/-- `Multivector::setComponent`: write a coefficient, leaving the rest. -/
def Multivector.setComponent (A : Multivector K) (m : ℕ) (v : K) : Multivector K :=
  ⟨A.alg, fun k => if k = m then v else A.coeffs k⟩

/-- `Multivector(const Algebra&)`: a fresh zero multivector in an algebra. -/
def zeroMV (alg : Algebra) : Multivector K := ⟨some alg, fun _ => 0⟩

/-- Shared loop body of the three involutions in `ops/involutions.h`: all
three walk the masks below `2^dims`, skip zero components and copy each
remaining component multiplied by a per-grade sign; only the sign formula
differs, so it is a parameter here. -/
def signedCopyLoop (sgn : ℕ → K) (A : Multivector K) (init : Multivector K)
    (l : List ℕ) : Multivector K :=
  l.foldl (fun result i =>
    let c := A.component i
    if c = 0 then result
    else result.setComponent i (c * sgn (getGrade i))) init

/-- `ga::ops::reverse`: per-grade sign `(-1)^(r(r-1)/2)`; a multivector with
no algebra attached is returned unchanged (`if (!alg) return A`). -/
def reverse (A : Multivector K) : Multivector K :=
  match A.alg with
  | none => A
  | some alg =>
    signedCopyLoop (fun r => if (r * (r - 1) / 2) &&& 1 = 0 then 1 else -1) A
      (zeroMV alg) (List.range (2 ^ alg.dimensions.toNat))

/-- `ga::ops::gradeInvolution`: per-grade sign `(-1)^r`; null algebra returns
the input unchanged. -/
def gradeInvolution (A : Multivector K) : Multivector K :=
  match A.alg with
  | none => A
  | some alg =>
    signedCopyLoop (fun r => if r &&& 1 ≠ 0 then -1 else 1) A
      (zeroMV alg) (List.range (2 ^ alg.dimensions.toNat))

/-- `ga::ops::cliffordConjugate`: per-grade sign `(-1)^(r(r+1)/2)`; null
algebra returns the input unchanged. -/
def cliffordConjugate (A : Multivector K) : Multivector K :=
  match A.alg with
  | none => A
  | some alg =>
    signedCopyLoop (fun r => if (r * (r + 1) / 2) &&& 1 = 0 then 1 else -1) A
      (zeroMV alg) (List.range (2 ^ alg.dimensions.toNat))

/-- `ga::ops::dual` (`ops/dual.h`): for each nonzero component at mask `m`,
multiply by the complement blade inside the pseudoscalar; skip the component
when the blade product is zero or does not land on the pseudoscalar
(degenerate metric); null algebra returns the input unchanged.  The `% 256`
are the `static_cast<BladeMask>` of `I_mask` and `comp`. -/
def dual (A : Multivector K) : Multivector K :=
  match A.alg with
  | none => A
  | some alg =>
    let dims := alg.dimensions.toNat
    let iMask := ((1 <<< dims) - 1) % 256
    (List.range (2 ^ dims)).foldl (fun result i =>
      let c := A.component i
      if c = 0 then result
      else
        let comp := (iMask ^^^ i) % 256
        let gp := geometricProductBlade ⟨i, 1⟩ ⟨comp, 1⟩ alg.signature
        if gp.sign = 0 ∨ gp.mask ≠ iMask then result
        else result.setComponent comp (result.component comp + c * (gp.sign : K)))
      (zeroMV alg)

/-- Failure kinds surfaced by the library (`std::invalid_argument` for
precondition violations, `std::runtime_error` for the near-zero numeric
guards, the spec's SingularOperand). -/
inductive GAErr where
  | invalidArgument
  | singularOperand
  deriving DecidableEq, Repr

/-- `ga::ops::geometricProduct` (`ops/geometric.h`): full Clifford product by
the dense double loop; reports a failure when the operands do not share one
(non-null) algebra. -/
def geometricProduct (A B : Multivector K) : Except GAErr (Multivector K) :=
  if A.alg ≠ B.alg then .error .invalidArgument
  else
    match A.alg with
    | none => .error .invalidArgument
    | some alg =>
      let n := 2 ^ alg.dimensions.toNat
      .ok <| (List.range n).foldl (fun out i =>
        let a := A.coeffs i
        if a = 0 then out
        else (List.range n).foldl (fun out j =>
          let b := B.coeffs j
          if b = 0 then out
          else
            let bc := geometricProductBlade ⟨i, 1⟩ ⟨j, 1⟩ alg.signature
            if bc.isZero then out
            else out.setComponent bc.mask (out.component bc.mask + a * b * (bc.sign : K)))
          out)
        (zeroMV alg)

/-- `ga::ops::geometricProductFiltered` (`ops/geometric.h`): the grade-filtered
bilinear extension; for every pair of nonzero source components, the blade
product is computed, the `(gradeA, gradeB, gradeR)` filter consulted, and the
surviving contribution accumulated at the result blade's mask. -/
def geometricProductFiltered (A B : Multivector K) (keep : ℕ → ℕ → ℕ → Bool) :
    Except GAErr (Multivector K) :=
  match A.alg, B.alg with
  | some algebraA, some algebraB =>
    if algebraA ≠ algebraB then .error .invalidArgument
    else
      let bladeCount := 2 ^ algebraA.dimensions.toNat
      .ok <| (List.range bladeCount).foldl (fun resultMV i =>
        let coeffA := A.component i
        if coeffA = 0 then resultMV
        else
          let gradeA := getGrade i
          (List.range bladeCount).foldl (fun resultMV j =>
            let coeffB := B.component j
            if coeffB = 0 then resultMV
            else
              let gradeB := getGrade j
              let resultBlade := geometricProductBlade ⟨i, 1⟩ ⟨j, 1⟩ algebraA.signature
              let gradeR := getGrade resultBlade.mask
              if !keep gradeA gradeB gradeR then resultMV
              else
                let contrib := coeffA * coeffB * (resultBlade.sign : K)
                if contrib = 0 then resultMV
                else resultMV.setComponent resultBlade.mask
                  (resultMV.component resultBlade.mask + contrib)) resultMV)
        (zeroMV algebraA)
  | _, _ => .error .invalidArgument

/-- `ga::ops::keepWedgeGrade` (`ops/wedge.h`). -/
def keepWedgeGrade (gradeA gradeB gradeR : ℕ) : Bool := gradeR == gradeA + gradeB

/-- `ga::ops::keepInnerGrade` (`ops/inner.h`): `|gradeA - gradeB|` over the
source's `int` grades. -/
def keepInnerGrade (gradeA gradeB gradeR : ℕ) : Bool :=
  gradeR == Int.natAbs ((gradeA : ℤ) - (gradeB : ℤ))

/-- `ga::ops::wedge`. -/
def wedge (A B : Multivector K) : Except GAErr (Multivector K) :=
  geometricProductFiltered A B keepWedgeGrade

/-- `ga::ops::inner`. -/
def inner (A B : Multivector K) : Except GAErr (Multivector K) :=
  geometricProductFiltered A B keepInnerGrade

/-- Trace of every dense-storage index the loop of
`geometricProductFiltered` reads or writes: the outer read at `i`, the inner
read at `j`, and — for pairs that survive the zero and filter tests — the
read-modify-write at the result blade's mask. -/
def gpfAccesses (A B : Multivector K) (keep : ℕ → ℕ → ℕ → Bool)
    (alg : Algebra) : List ℕ :=
  let bladeCount := 2 ^ alg.dimensions.toNat
  (List.range bladeCount).flatMap (fun i =>
    i :: (if A.component i = 0 then []
      else (List.range bladeCount).flatMap (fun j =>
        j :: (if B.component j = 0 then []
          else
            let resultBlade := geometricProductBlade ⟨i, 1⟩ ⟨j, 1⟩ alg.signature
            if !keep (getGrade i) (getGrade j) (getGrade resultBlade.mask) then []
            else if A.component i * B.component j * (resultBlade.sign : K) = 0 then []
            else [resultBlade.mask, resultBlade.mask]))))

end MultivectorLayer

/-- The Euclidean signature `(3, 0, 0)`. -/
def sig300 : Signature := (Signature.ofCounts 3 0 0 true).getD sigFallback

/-- The Euclidean 3D algebra. -/
def algE3 : Algebra := Algebra.ofSignature sig300

/-- Basis multivector of the E3 algebra with a single unit coefficient at
mask `m`. -/
def unitE3 (m : ℕ) : Multivector ℤ := ⟨some algE3, fun k => if k = m then 1 else 0⟩

/-- Expected coefficients of `dual` on the E3 basis, exactly as the claim
lists them (masks: `e1 = 1`, `e2 = 2`, `e12 = 3`, `e3 = 4`, `e13 = 5`,
`e23 = 6`, `e123 = 7`). -/
def dualExpectedE3 (m k : ℕ) : ℤ :=
  match m with
  | 0 => if k = 7 then 1 else 0
  | 1 => if k = 6 then 1 else 0
  | 2 => if k = 5 then -1 else 0
  | 3 => if k = 4 then 1 else 0
  | 4 => if k = 3 then 1 else 0
  | 5 => if k = 2 then -1 else 0
  | 6 => if k = 1 then 1 else 0
  | 7 => if k = 0 then 1 else 0
  | _ => 0

/-- C4: in the algebra with signature `(3,0,0)`, `dual` maps every basis
multivector with a single unit coefficient exactly as the specification's
table `dual(1) = e123, dual(e1) = e23, dual(e2) = -e13, dual(e3) = e12,
dual(e12) = e3, dual(e13) = -e2, dual(e23) = e1, dual(e123) = 1`, all other
output coefficients being zero. -/
theorem dual_e3_table :
    ∀ m k : Fin 8, (dual (unitE3 m)).component k = dualExpectedE3 m k := by
  decide

/-- A multivector with no algebra attached and a nonzero coefficient. -/
def orphanMV : Multivector ℤ := ⟨none, fun k => if k = 0 then 1 else 0⟩

/-- C8, counterexample part: the unary operations do not report a failure on a
multivector without an algebra attached — each of `reverse`,
`gradeInvolution`, `cliffordConjugate` and `dual` returns the input
multivector itself (the source's `if (!alg) return A;`), so a result is
produced rather than an AlgebraMismatch report. -/
theorem unary_ops_orphan_cex :
    reverse orphanMV = orphanMV ∧ gradeInvolution orphanMV = orphanMV ∧
    cliffordConjugate orphanMV = orphanMV ∧ dual orphanMV = orphanMV :=
  ⟨rfl, rfl, rfl, rfl⟩

/-- C8, amended: the binary products (`geometricProduct` and every
`geometricProductFiltered` instance, hence `wedge`/`inner`) reject a
multivector without an algebra attached — on either side — with the
algebra-mismatch failure; the unary operations `reverse`, `gradeInvolution`,
`cliffordConjugate` and `dual` do not: each returns the input multivector
unchanged (no failure is reported and no fresh output is built). -/
theorem unary_ops_orphan_amended {K : Type} [CommRing K] [DecidableEq K]
    (A : Multivector K) (h : A.alg = none) :
    (reverse A = A ∧ gradeInvolution A = A ∧ cliffordConjugate A = A ∧
      dual A = A) ∧
    (∀ (B : Multivector K) (keep : ℕ → ℕ → ℕ → Bool),
      geometricProduct A B = .error .invalidArgument ∧
      geometricProduct B A = .error .invalidArgument ∧
      geometricProductFiltered A B keep = .error .invalidArgument ∧
      geometricProductFiltered B A keep = .error .invalidArgument) := by
  refine ⟨?_, fun B keep => ⟨?_, ?_, ?_, ?_⟩⟩
  · refine ⟨?_, ?_, ?_, ?_⟩ <;>
      simp only [reverse, gradeInvolution, cliffordConjugate, dual, h]
  · rw [geometricProduct]
    by_cases hB : B.alg = none
    · rw [if_neg (by rw [h, hB]; exact fun hc => hc rfl), h]
    · rw [if_pos (by rw [h]; exact fun hc => hB hc.symm)]
  · rw [geometricProduct]
    by_cases hB : B.alg = none
    · rw [if_neg (by rw [h, hB]; exact fun hc => hc rfl), hB]
    · rw [if_pos (by rw [h]; exact hB)]
  · cases hB : B.alg with
    | none => rw [geometricProductFiltered, h, hB]
    | some a => rw [geometricProductFiltered, h, hB]
  · cases hB : B.alg with
    | none => rw [geometricProductFiltered, h, hB]
    | some a => rw [geometricProductFiltered, h, hB]

/-- C8, witness for the amended theorem: at the concrete orphan multivector
(paired with a basis multivector of the E3 algebra on the binary side). -/
theorem unary_ops_orphan_amended_witness :
    (reverse orphanMV = orphanMV ∧ gradeInvolution orphanMV = orphanMV ∧
      cliffordConjugate orphanMV = orphanMV ∧ dual orphanMV = orphanMV) ∧
    (geometricProduct orphanMV (unitE3 0) = .error .invalidArgument ∧
      geometricProduct (unitE3 0) orphanMV = .error .invalidArgument ∧
      geometricProductFiltered orphanMV (unitE3 0) keepWedgeGrade
        = .error .invalidArgument ∧
      geometricProductFiltered (unitE3 0) orphanMV keepWedgeGrade
        = .error .invalidArgument) :=
  ⟨(unary_ops_orphan_amended orphanMV rfl).1,
   (unary_ops_orphan_amended orphanMV rfl).2 (unitE3 0) keepWedgeGrade⟩

/-- The algebra reference of the involution loop's result is the one of its
initial accumulator: `setComponent` never touches it. -/
theorem signedCopyLoop_alg {K : Type} [CommRing K] [DecidableEq K]
    (sgn : ℕ → K) (A : Multivector K) (init : Multivector K) (l : List ℕ) :
    (signedCopyLoop sgn A init l).alg = init.alg := by
  induction l generalizing init with
  | nil => rfl
  | cons i t ih =>
    simp only [signedCopyLoop, List.foldl_cons] at *
    rw [ih]
    by_cases hc : A.component i = 0 <;> simp [hc, Multivector.setComponent]

/-- Pointwise characterisation of the involution loop: a mask visited by the
loop whose source coefficient is nonzero carries the signed copy, every other
mask keeps the accumulator's value.  (When the source coefficient is zero the
loop skips the write, and the accumulator already holds that mask's value.) -/
theorem signedCopyLoop_component {K : Type} [CommRing K] [DecidableEq K]
    (sgn : ℕ → K) (A : Multivector K) (init : Multivector K) (l : List ℕ) (k : ℕ) :
    (signedCopyLoop sgn A init l).component k =
      if k ∈ l ∧ A.component k ≠ 0 then A.component k * sgn (getGrade k)
      else init.component k := by
  induction l generalizing init with
  | nil => simp [signedCopyLoop]
  | cons i t ih =>
    simp only [signedCopyLoop] at ih ⊢
    rw [List.foldl_cons, ih]
    by_cases hkt : k ∈ t ∧ A.component k ≠ 0
    · rw [if_pos hkt, if_pos ⟨List.mem_cons_of_mem i hkt.1, hkt.2⟩]
    · rw [if_neg hkt]
      by_cases hc : A.component i = 0
      · rw [if_pos hc, if_neg]
        rintro ⟨hmem, hne⟩
        rcases List.mem_cons.mp hmem with hEq | hmt
        · exact hne (hEq ▸ hc)
        · exact hkt ⟨hmt, hne⟩
      · rw [if_neg hc]
        by_cases hki : k = i
        · subst hki
          rw [if_pos ⟨List.mem_cons_self k t, hc⟩]
          simp [Multivector.setComponent, Multivector.component]
        · have hstep : (init.setComponent i (A.component i * sgn (getGrade i))).component k
              = init.component k := by
            simp [Multivector.setComponent, Multivector.component, hki]
          rw [hstep, if_neg]
          rintro ⟨hmem, hne⟩
          rcases List.mem_cons.mp hmem with hEq | hmt
          · exact hki hEq
          · exact hkt ⟨hmt, hne⟩

/-- Arithmetic behind the composition of involutions:
`r(r+1)/2 = r(r-1)/2 + r` over `ℕ`. -/
theorem triangle_step (r : ℕ) : r * (r + 1) / 2 = r * (r - 1) / 2 + r := by
  cases r with
  | zero => rfl
  | succ n =>
    have h : (n + 1) * (n + 1 + 1) = (n + 1) * (n + 1 - 1) + 2 * (n + 1) := by
      simp only [Nat.add_sub_cancel]
      ring
    rw [h, Nat.add_mul_div_left _ _ (by norm_num : (0:ℕ) < 2)]

/-- The Clifford-conjugation grade sign is the product of the reverse and
grade-involution grade signs, exactly as the three loops compute them. -/
theorem involution_signs_compose {K : Type} [CommRing K] (r : ℕ) :
    (if (r * (r + 1) / 2) &&& 1 = 0 then (1:K) else -1) =
      (if (r * (r - 1) / 2) &&& 1 = 0 then (1:K) else -1) *
        (if r &&& 1 ≠ 0 then (-1:K) else 1) := by
  rw [triangle_step]
  simp only [Nat.and_one_is_mod]
  rcases Nat.mod_two_eq_zero_or_one (r * (r - 1) / 2) with hx | hx <;>
    rcases Nat.mod_two_eq_zero_or_one r with hr | hr <;>
      simp [Nat.add_mod, hx, hr]

/-- C6: for every multivector attached to an algebra, Clifford conjugation
agrees with the reverse of the grade involution and with the grade involution
of the reverse, coefficient by coefficient at every mask. -/
theorem cliffordConjugate_eq_compositions {K : Type} [CommRing K] [DecidableEq K]
    (A : Multivector K) (alg : Algebra) (h : A.alg = some alg) (m : ℕ) :
    (cliffordConjugate A).component m = (reverse (gradeInvolution A)).component m ∧
    (cliffordConjugate A).component m = (gradeInvolution (reverse A)).component m := by
  have hgalg : (gradeInvolution A).alg = some alg := by
    unfold gradeInvolution
    rw [h]
    exact signedCopyLoop_alg _ _ _ _
  have hralg : (reverse A).alg = some alg := by
    unfold reverse
    rw [h]
    exact signedCopyLoop_alg _ _ _ _
  have hc : cliffordConjugate A =
      signedCopyLoop (fun r => if (r * (r + 1) / 2) &&& 1 = 0 then (1:K) else -1) A
        (zeroMV alg) (List.range (2 ^ alg.dimensions.toNat)) := by
    unfold cliffordConjugate
    rw [h]
  have hg : gradeInvolution A =
      signedCopyLoop (fun r => if r &&& 1 ≠ 0 then (-1:K) else 1) A
        (zeroMV alg) (List.range (2 ^ alg.dimensions.toNat)) := by
    unfold gradeInvolution
    rw [h]
  have hr : reverse A =
      signedCopyLoop (fun r => if (r * (r - 1) / 2) &&& 1 = 0 then (1:K) else -1) A
        (zeroMV alg) (List.range (2 ^ alg.dimensions.toNat)) := by
    unfold reverse
    rw [h]
  have hrg : reverse (gradeInvolution A) =
      signedCopyLoop (fun r => if (r * (r - 1) / 2) &&& 1 = 0 then (1:K) else -1)
        (gradeInvolution A) (zeroMV alg) (List.range (2 ^ alg.dimensions.toNat)) := by
    unfold reverse
    rw [hgalg]
  have hgr : gradeInvolution (reverse A) =
      signedCopyLoop (fun r => if r &&& 1 ≠ 0 then (-1:K) else 1)
        (reverse A) (zeroMV alg) (List.range (2 ^ alg.dimensions.toNat)) := by
    unfold gradeInvolution
    rw [hralg]
  set N := 2 ^ alg.dimensions.toNat with hN
  set gi : ℕ → K := fun r => if r &&& 1 ≠ 0 then (-1:K) else 1 with hgi
  set rv : ℕ → K := fun r => if (r * (r - 1) / 2) &&& 1 = 0 then (1:K) else -1 with hrv
  set cl : ℕ → K := fun r => if (r * (r + 1) / 2) &&& 1 = 0 then (1:K) else -1 with hcl
  have hsign : ∀ r, cl r = rv r * gi r := fun r => involution_signs_compose r
  have hunit : ∀ (x : K) r, x * gi r = 0 → x = 0 := by
    intro x r hx
    simp only [hgi] at hx
    by_cases hb : r &&& 1 ≠ 0
    · rw [if_pos hb, mul_neg_one, neg_eq_zero] at hx
      exact hx
    · rw [if_neg hb, mul_one] at hx
      exact hx
  have hunitr : ∀ (x : K) r, x * rv r = 0 → x = 0 := by
    intro x r hx
    simp only [hrv] at hx
    by_cases hb : (r * (r - 1) / 2) &&& 1 = 0
    · rw [if_pos hb, mul_one] at hx
      exact hx
    · rw [if_neg hb, mul_neg_one, neg_eq_zero] at hx
      exact hx
  constructor
  · rw [hc, hrg, signedCopyLoop_component, signedCopyLoop_component]
    by_cases hm : m ∈ List.range N ∧ A.component m ≠ 0
    · have hGm : (gradeInvolution A).component m = A.component m * gi (getGrade m) := by
        rw [hg, signedCopyLoop_component, if_pos hm]
      have hGne : (gradeInvolution A).component m ≠ 0 := by
        rw [hGm]
        intro hx
        exact hm.2 (hunit _ _ hx)
      rw [if_pos hm, if_pos ⟨hm.1, hGne⟩, hGm, hsign]
      ring
    · rw [if_neg hm]
      rcases not_and_or.mp hm with hmem | hzero
      · have hside : ¬(m ∈ List.range N ∧ (gradeInvolution A).component m ≠ 0) :=
          fun hx => hmem hx.1
        rw [if_neg hside]
      · have hG0 : (gradeInvolution A).component m = 0 := by
          rw [hg, signedCopyLoop_component, if_neg (fun hx => hzero hx.2)]
          simp [zeroMV, Multivector.component]
        have hside : ¬(m ∈ List.range N ∧ (gradeInvolution A).component m ≠ 0) :=
          fun hx => hx.2 hG0
        rw [if_neg hside]
  · rw [hc, hgr, signedCopyLoop_component, signedCopyLoop_component]
    by_cases hm : m ∈ List.range N ∧ A.component m ≠ 0
    · have hRm : (reverse A).component m = A.component m * rv (getGrade m) := by
        rw [hr, signedCopyLoop_component, if_pos hm]
      have hRne : (reverse A).component m ≠ 0 := by
        rw [hRm]
        intro hx
        exact hm.2 (hunitr _ _ hx)
      rw [if_pos hm, if_pos ⟨hm.1, hRne⟩, hRm, hsign]
      ring
    · rw [if_neg hm]
      rcases not_and_or.mp hm with hmem | hzero
      · have hside : ¬(m ∈ List.range N ∧ (reverse A).component m ≠ 0) :=
          fun hx => hmem hx.1
        rw [if_neg hside]
      · have hR0 : (reverse A).component m = 0 := by
          rw [hr, signedCopyLoop_component, if_neg (fun hx => hzero hx.2)]
          simp [zeroMV, Multivector.component]
        have hside : ¬(m ∈ List.range N ∧ (reverse A).component m ≠ 0) :=
          fun hx => hx.2 hR0
        rw [if_neg hside]

/-- C6, witness: the composition identity applied to the E3 unit scalar
multivector at mask 3. -/
theorem cliffordConjugate_eq_compositions_witness :
    (unitE3 0).alg = some algE3 ∧
    ((cliffordConjugate (unitE3 0)).component 3 =
        (reverse (gradeInvolution (unitE3 0))).component 3 ∧
      (cliffordConjugate (unitE3 0)).component 3 =
        (gradeInvolution (reverse (unitE3 0))).component 3) :=
  ⟨rfl, cliffordConjugate_eq_compositions (unitE3 0) algE3 rfl 3⟩

/-- The axis test agrees with `Nat.testBit` on in-range indices. -/
theorem hasAxis_eq_testBit (m i : ℕ) (h : i < 8) : hasAxis m i = m.testBit i := by
  rw [hasAxis, if_pos h, Nat.one_shiftLeft, Nat.and_two_pow]
  cases hb : m.testBit i <;> simp [hb]

/-- The axis test is false beyond the mask's bit width. -/
theorem hasAxis_false_of_lt {m n : ℕ} (hm : m < 2 ^ n) {i : ℕ} (hni : n ≤ i) :
    hasAxis m i = false := by
  by_cases h8 : i < 8
  · rw [hasAxis_eq_testBit m i h8]
    exact Nat.testBit_eq_false_of_lt
      (lt_of_lt_of_le hm (Nat.pow_le_pow_right (by norm_num) hni))
  · rw [hasAxis, if_neg h8]

/-- The source's branch on swap parity is the `(-1)` power of the claim. -/
theorem ite_parity_eq_neg_one_pow (k : ℕ) :
    (if k % 2 = 0 then (1:ℤ) else -1) = (-1) ^ k := by
  rcases Nat.even_or_odd k with h | h
  · rw [if_pos (Nat.even_iff.mp h), Even.neg_one_pow h]
  · rw [if_neg (by rw [Nat.odd_iff.mp h]; norm_num), Odd.neg_one_pow h]

/-- Closed form of the contraction loop: it fails exactly when a visited
shared axis has metric zero, and otherwise multiplies the initial sign by the
metric of every visited shared axis. -/
theorem contractionLoop_eq (sig : Signature) (ov : ℕ) (l : List ℕ) (s : ℤ) :
    contractionLoop sig ov l s =
      if ∃ i ∈ l, hasAxis ov i ∧ sig.getSign i = 0 then none
      else some (s * ((l.filter (fun i => hasAxis ov i)).map sig.getSign).prod) := by
  induction l generalizing s with
  | nil => simp [contractionLoop]
  | cons i rest ih =>
    by_cases hA : hasAxis ov i
    · by_cases hz : sig.getSign i = 0
      · rw [contractionLoop, if_pos hA, if_pos hz, if_pos ⟨i, List.mem_cons_self i rest, hA, hz⟩]
      · rw [contractionLoop, if_pos hA, if_neg hz, ih]
        have hmem : (∃ j ∈ i :: rest, hasAxis ov j ∧ sig.getSign j = 0) ↔
            (∃ j ∈ rest, hasAxis ov j ∧ sig.getSign j = 0) := by
          constructor
          · rintro ⟨j, hj, hAj, hzj⟩
            rcases List.mem_cons.mp hj with hEq | hjr
            · exact absurd (hEq ▸ hzj) hz
            · exact ⟨j, hjr, hAj, hzj⟩
          · rintro ⟨j, hj, hAj, hzj⟩
            exact ⟨j, List.mem_cons_of_mem i hj, hAj, hzj⟩
        by_cases hex : ∃ j ∈ rest, hasAxis ov j ∧ sig.getSign j = 0
        · rw [if_pos hex, if_pos (hmem.mpr hex)]
        · rw [if_neg hex, if_neg (fun hx => hex (hmem.mp hx))]
          rw [List.filter_cons_of_pos hA, List.map_cons, List.prod_cons]
          ring_nf
    · rw [contractionLoop, if_neg (by simp [hA]), ih]
      have hmem : (∃ j ∈ i :: rest, hasAxis ov j ∧ sig.getSign j = 0) ↔
          (∃ j ∈ rest, hasAxis ov j ∧ sig.getSign j = 0) := by
        constructor
        · rintro ⟨j, hj, hAj, hzj⟩
          rcases List.mem_cons.mp hj with hEq | hjr
          · exact absurd (hEq ▸ hAj) (by simp [hA])
          · exact ⟨j, hjr, hAj, hzj⟩
        · rintro ⟨j, hj, hAj, hzj⟩
          exact ⟨j, List.mem_cons_of_mem i hj, hAj, hzj⟩
      by_cases hex : ∃ j ∈ rest, hasAxis ov j ∧ sig.getSign j = 0
      · rw [if_pos hex, if_pos (hmem.mpr hex)]
      · rw [if_neg hex, if_neg (fun hx => hex (hmem.mp hx)), List.filter_cons_of_neg (by simp [hA])]

/-- For an in-range axis the two `static_cast<BladeMask>` in the swap-count
loop are identities, so each term is a plain popcount of the low bits of
`bm`. -/
theorem gpSwapCount_term (bm i : ℕ) (hbm : bm < 256) (h8 : i < 8) :
    (bm &&& (((1 <<< i) - 1) % 256)) % 256 = bm &&& (2 ^ i - 1) := by
  have h1 : (1 <<< i) - 1 < 256 := by
    rw [Nat.one_shiftLeft]
    have : 2 ^ i ≤ 2 ^ 8 := Nat.pow_le_pow_right (by norm_num) (le_of_lt h8)
    omega
  rw [Nat.mod_eq_of_lt h1,
    Nat.mod_eq_of_lt (lt_of_le_of_lt Nat.and_le_left hbm), Nat.one_shiftLeft]

/-- The swap-count loop, bounded by the used dimensions, agrees with the
claim's unbounded sum over all axes of `a.mask` once the masks fit in the
used dimensions. -/
theorem gpSwapCount_eq_spec (am bm n : ℕ) (hn8 : n ≤ 8)
    (ham : am < 2 ^ n) (hbm : bm < 2 ^ n) :
    gpSwapCount am bm n =
      ∑ i ∈ Finset.range 8,
        if hasAxis am i then popcount (bm &&& (2 ^ i - 1)) else 0 := by
  have hbm8 : bm < 256 :=
    lt_of_lt_of_le hbm (Nat.pow_le_pow_right (by norm_num) hn8)
  rw [gpSwapCount]
  rw [Finset.sum_subset (Finset.range_subset.mpr hn8)]
  · apply Finset.sum_congr rfl
    intro i hi
    by_cases hA : hasAxis am i
    · rw [if_pos hA, if_pos hA, gpSwapCount_term bm i hbm8 (Finset.mem_range.mp hi)]
    · rw [if_neg (by simp [hA]), if_neg (by simp [hA])]
  · intro i hi8 hin
    rw [if_neg]
    simp [hasAxis_false_of_lt ham (le_of_not_lt (fun h => hin (Finset.mem_range.mpr h)))]

/-- Filtering the axes of a mask below `2^n` out of `range 8` or out of
`range n` gives the same list. -/
theorem filter_range_eight_eq (p : ℕ → Bool) (n : ℕ) (hn8 : n ≤ 8)
    (hp : ∀ i, n ≤ i → p i = false) :
    (List.range 8).filter p = (List.range n).filter p := by
  have h8 : 8 = n + (8 - n) := by omega
  rw [h8, List.range_add, List.filter_append]
  have hnil : ((List.range (8 - n)).map (fun x => n + x)).filter p = [] := by
    rw [List.filter_eq_nil_iff]
    intro a ha
    rcases List.mem_map.mp ha with ⟨x, _, hx⟩
    simp [← hx, hp (n + x) (Nat.le_add_right n x)]
  rw [hnil, List.append_nil]

/-- C1: characterisation of `geometricProductBlade` on non-zero,
non-scalar-basis blades whose axes all lie among the `n ≤ 8` used dimensions
of the signature.  The product is the zero blade exactly when some shared
axis has metric zero; otherwise its mask is the symmetric difference and its
sign is `a.sign * b.sign * (-1)^swapCount * Π g(i)` over the shared axes,
with `swapCount = Σ_{i ∈ a.mask} popcount(b.mask AND ((1 << i) - 1))`.  (When
the resulting mask is `0` the right-hand side is `⟨0, sign⟩`, which is the
scalar basis blade with that sign.) -/
theorem geometricProductBlade_formula (a b : Blade) (sig : Signature) (n : ℕ)
    (ha1 : a.sign = 1 ∨ a.sign = -1) (hb1 : b.sign = 1 ∨ b.sign = -1)
    (ham : a.mask ≠ 0) (hbm : b.mask ≠ 0)
    (hn : sig.dimensionsUsed = (n : ℤ)) (hn8 : n ≤ 8)
    (haN : a.mask < 2 ^ n) (hbN : b.mask < 2 ^ n) :
    geometricProductBlade a b sig =
      if ∃ i ∈ Finset.range 8, hasAxis (a.mask &&& b.mask) i ∧ sig.getSign i = 0 then ⟨0, 0⟩
      else
        ⟨a.mask ^^^ b.mask,
         a.sign * b.sign *
           (-1) ^ (∑ i ∈ Finset.range 8,
             if hasAxis a.mask i then popcount (b.mask &&& (2 ^ i - 1)) else 0) *
           (((List.range 8).filter (fun i => hasAxis (a.mask &&& b.mask) i)).map
             sig.getSign).prod⟩ := by
  have hZa : a.isZero = false := by
    rcases ha1 with h | h <;> simp [Blade.isZero, h]
  have hZb : b.isZero = false := by
    rcases hb1 with h | h <;> simp [Blade.isZero, h]
  have hSa : a.isScalarBasis = false := by
    simp [Blade.isScalarBasis, ham]
  have hSb : b.isScalarBasis = false := by
    simp [Blade.isScalarBasis, hbm]
  have hdim : sig.dimensionsUsed.toNat = n := by rw [hn, Int.toNat_natCast]
  have hovlt : a.mask &&& b.mask < 2 ^ n := lt_of_le_of_lt Nat.and_le_left haN
  have hov256 : a.mask &&& b.mask < 256 :=
    lt_of_lt_of_le hovlt (Nat.pow_le_pow_right (by norm_num) hn8)
  have hxor : a.mask ^^^ b.mask < 256 :=
    lt_of_lt_of_le (Nat.xor_lt_two_pow haN hbN) (Nat.pow_le_pow_right (by norm_num) hn8)
  have hexiff : (∃ i ∈ List.range n, hasAxis (a.mask &&& b.mask) i ∧ sig.getSign i = 0) ↔
      (∃ i ∈ Finset.range 8, hasAxis (a.mask &&& b.mask) i ∧ sig.getSign i = 0) := by
    constructor
    · rintro ⟨i, hi, hAi, hzi⟩
      exact ⟨i, Finset.mem_range.mpr (lt_of_lt_of_le (List.mem_range.mp hi) hn8), hAi, hzi⟩
    · rintro ⟨i, _, hAi, hzi⟩
      refine ⟨i, List.mem_range.mpr ?_, hAi, hzi⟩
      by_contra hni
      rw [hasAxis_false_of_lt hovlt (le_of_not_lt hni)] at hAi
      exact Bool.false_ne_true hAi
  have hfilter : (List.range 8).filter (fun i => hasAxis (a.mask &&& b.mask) i) =
      (List.range n).filter (fun i => hasAxis (a.mask &&& b.mask) i) :=
    filter_range_eight_eq _ n hn8 (fun i hi => hasAxis_false_of_lt hovlt hi)
  rw [geometricProductBlade]
  rw [hZa, hZb, hSa, hSb]
  simp only [Bool.false_or, Bool.or_self, if_false]
  rw [hdim, Nat.mod_eq_of_lt hov256,
    gpSwapCount_eq_spec a.mask b.mask n hn8 haN hbN, contractionLoop_eq]
  set swaps := ∑ i ∈ Finset.range 8,
    if hasAxis a.mask i then popcount (b.mask &&& (2 ^ i - 1)) else 0 with hswaps
  by_cases hex : ∃ i ∈ Finset.range 8, hasAxis (a.mask &&& b.mask) i ∧ sig.getSign i = 0
  · rw [if_pos (hexiff.mpr hex), if_pos hex]
    rfl
  · rw [if_neg (fun hx => hex (hexiff.mp hx)), if_neg hex]
    have hprodne : (((List.range n).filter
        (fun i => hasAxis (a.mask &&& b.mask) i)).map sig.getSign).prod ≠ 0 := by
      apply List.prod_ne_zero
      intro h0
      rcases List.mem_map.mp h0 with ⟨i, hi, hgi⟩
      rcases List.mem_filter.mp hi with ⟨hir, hAi⟩
      exact hex ⟨i, Finset.mem_range.mpr (lt_of_lt_of_le (List.mem_range.mp hir) hn8),
        hAi, hgi⟩
    have hsignne : a.sign * b.sign * (if swaps % 2 = 0 then 1 else -1) *
        (((List.range n).filter
          (fun i => hasAxis (a.mask &&& b.mask) i)).map sig.getSign).prod ≠ 0 := by
      apply mul_ne_zero
      apply mul_ne_zero
      apply mul_ne_zero
      · rcases ha1 with h | h <;> rw [h] <;> norm_num
      · rcases hb1 with h | h <;> rw [h] <;> norm_num
      · by_cases hsw : swaps % 2 = 0 <;> simp [hsw]
      · exact hprodne
    simp only []
    rw [if_neg hsignne, Nat.mod_eq_of_lt hxor, hfilter,
      ite_parity_eq_neg_one_pow]
    by_cases hres : a.mask ^^^ b.mask = 0
    · rw [if_pos hres, hres]
      rfl
    · rw [if_neg hres]
      rfl

/-- C1, witness: the formula applied to `a = e1`, `b = e1 ∧ e2` in the
Euclidean signature `(2, 0, 0)`; both sides evaluate to `e2` with sign `+1`.
-/
theorem geometricProductBlade_formula_witness :
    ((1 : ℤ) = 1 ∨ (1 : ℤ) = -1) ∧ (1 : ℕ) ≠ 0 ∧ (3 : ℕ) ≠ 0 ∧
      sig200.dimensionsUsed = ((2 : ℕ) : ℤ) ∧ (2 : ℕ) ≤ 8 ∧
      (1 : ℕ) < 2 ^ 2 ∧ (3 : ℕ) < 2 ^ 2 ∧
    geometricProductBlade ⟨1, 1⟩ ⟨3, 1⟩ sig200 =
      (if ∃ i ∈ Finset.range 8, hasAxis ((1 : ℕ) &&& 3) i ∧ sig200.getSign i = 0 then ⟨0, 0⟩
      else
        ⟨1 ^^^ 3,
         1 * 1 *
           (-1) ^ (∑ i ∈ Finset.range 8,
             if hasAxis 1 i then popcount (3 &&& (2 ^ i - 1)) else 0) *
           (((List.range 8).filter (fun i => hasAxis ((1 : ℕ) &&& 3) i)).map
             sig200.getSign).prod⟩ : Blade) :=
  ⟨Or.inl rfl, by decide, by decide, by decide, by decide, by decide, by decide,
    geometricProductBlade_formula ⟨1, 1⟩ ⟨3, 1⟩ sig200 2 (Or.inl rfl) (Or.inl rfl)
      (by decide) (by decide) (by decide) (by decide) (by decide) (by decide)⟩

/-- Well-formedness of a blade value: sign in `{-1, 0, +1}`, and the zero
sign only in the normalised zero blade `(mask 0, sign 0)`. -/
def bladeWF (bl : Blade) : Prop :=
  (bl.sign = -1 ∨ bl.sign = 0 ∨ bl.sign = 1) ∧ (bl.sign = 0 → bl.mask = 0)

/-- The specification's data-model invariant on signatures: every diagonal
metric entry is `+1`, `-1` or `0`. -/
def Signature.MetricWF (sig : Signature) : Prop :=
  ∀ i < 8, sig.getSign i = -1 ∨ sig.getSign i = 0 ∨ sig.getSign i = 1

/-- A product of two signs from `{-1, +1}` stays in `{-1, +1}`. -/
theorem mul_pm_one {x y : ℤ} (hx : x = -1 ∨ x = 1) (hy : y = -1 ∨ y = 1) :
    x * y = -1 ∨ x * y = 1 := by
  rcases hx with h | h <;> rcases hy with h2 | h2 <;> rw [h, h2] <;> norm_num

/-- A product of list entries from `{-1, +1}` lies in `{-1, +1}`. -/
theorem prod_pm_one (l : List ℤ) (h : ∀ x ∈ l, x = -1 ∨ x = 1) :
    l.prod = -1 ∨ l.prod = 1 := by
  induction l with
  | nil => exact Or.inr List.prod_nil
  | cons x t ih =>
    rw [List.prod_cons]
    exact mul_pm_one (h x (List.mem_cons_self x t))
      (ih (fun y hy => h y (List.mem_cons_of_mem x hy)))

/-- A sign from `{-1, 0, +1}` that is not zero is `-1` or `+1`. -/
theorem pm_of_ne_zero {x : ℤ} (hx : x = -1 ∨ x = 0 ∨ x = 1) (hne : x ≠ 0) :
    x = -1 ∨ x = 1 := by
  rcases hx with h | h | h
  · exact Or.inl h
  · exact absurd h hne
  · exact Or.inr h

/-- C9: well-formedness invariant of blades.  `makeBlade` on any axis list,
and `combineBlade` / `geometricProductBlade` on input blades with signs in
`{-1, 0, +1}` (under a signature satisfying the data model's
`g(i) ∈ {-1, 0, +1}`), return a blade whose sign is in `{-1, 0, +1}` and
whose mask is `0` whenever its sign is `0`. -/
theorem blade_wf_invariant (l : List ℤ) (a b : Blade) (sig : Signature)
    (ha : a.sign = -1 ∨ a.sign = 0 ∨ a.sign = 1)
    (hb : b.sign = -1 ∨ b.sign = 0 ∨ b.sign = 1)
    (hsig : sig.MetricWF) :
    bladeWF (makeBlade l) ∧ bladeWF (combineBlade a b) ∧
    bladeWF (geometricProductBlade a b sig) := by
  refine ⟨?_, ?_, ?_⟩
  · unfold makeBlade
    split
    · exact ⟨Or.inr (Or.inr rfl), fun h => absurd h (by norm_num)⟩
    · split
      · exact ⟨Or.inr (Or.inl rfl), fun _ => rfl⟩
      · split
        · exact ⟨Or.inr (Or.inl rfl), fun _ => rfl⟩
        · split
          · exact ⟨Or.inr (Or.inr rfl), fun h => absurd h (by norm_num)⟩
          · exact ⟨Or.inl rfl, fun h => absurd h (by norm_num)⟩
  · by_cases hz : (a.isZero || b.isZero) = true
    · rw [combineBlade, if_pos hz]
      exact ⟨Or.inr (Or.inl rfl), fun _ => rfl⟩
    · have hane : a.sign ≠ 0 := by
        simp [Blade.isZero] at hz
        exact hz.1
      have hbne : b.sign ≠ 0 := by
        simp [Blade.isZero] at hz
        exact hz.2
      have hprod : a.sign * b.sign = -1 ∨ a.sign * b.sign = 1 :=
        mul_pm_one (pm_of_ne_zero ha hane) (pm_of_ne_zero hb hbne)
      have hprodne : a.sign * b.sign ≠ 0 := by
        rcases hprod with h | h <;> rw [h] <;> norm_num
      rw [combineBlade, if_neg hz]
      split
      · exact ⟨hprod.imp id Or.inr, fun h => absurd h hprodne⟩
      · split
        · exact ⟨hprod.imp id Or.inr, fun h => absurd h hprodne⟩
        · split
          · exact ⟨Or.inr (Or.inl rfl), fun _ => rfl⟩
          · simp only []
            set sw2 : ℕ := ∑ j ∈ Finset.range 8,
                if hasAxis b.mask j then ∑ i ∈ Finset.Ico (j + 1) 8,
                  (if hasAxis a.mask i then 1 else 0) else 0 with hsw2
            have hps : (if sw2 % 2 = 0 then (1:ℤ) else -1) = -1 ∨
                (if sw2 % 2 = 0 then (1:ℤ) else -1) = 1 := by
              split
              · exact Or.inr rfl
              · exact Or.inl rfl
            have hcb := mul_pm_one hprod hps
            have hcbne : a.sign * b.sign * (if sw2 % 2 = 0 then (1:ℤ) else -1) ≠ 0 := by
              rcases hcb with h2 | h2 <;> rw [h2] <;> norm_num
            exact ⟨hcb.imp id Or.inr, fun h => absurd h hcbne⟩
  · by_cases hz : (a.isZero || b.isZero) = true
    · rw [geometricProductBlade, if_pos hz]
      exact ⟨Or.inr (Or.inl rfl), fun _ => rfl⟩
    · have hane : a.sign ≠ 0 := by
        simp [Blade.isZero] at hz
        exact hz.1
      have hbne : b.sign ≠ 0 := by
        simp [Blade.isZero] at hz
        exact hz.2
      have hprod : a.sign * b.sign = -1 ∨ a.sign * b.sign = 1 :=
        mul_pm_one (pm_of_ne_zero ha hane) (pm_of_ne_zero hb hbne)
      have hprodne : a.sign * b.sign ≠ 0 := by
        rcases hprod with h | h <;> rw [h] <;> norm_num
      rw [geometricProductBlade, if_neg hz]
      by_cases hsa : a.isScalarBasis = true
      · rw [if_pos hsa]
        exact ⟨hprod.imp id Or.inr, fun h => absurd h hprodne⟩
      · rw [if_neg hsa]
        by_cases hsb : b.isScalarBasis = true
        · rw [if_pos hsb]
          exact ⟨hprod.imp id Or.inr, fun h => absurd h hprodne⟩
        · rw [if_neg hsb]
          simp only []
          rw [contractionLoop_eq]
          by_cases hnex : ∃ i ∈ List.range sig.dimensionsUsed.toNat,
              hasAxis ((a.mask &&& b.mask) % 256) i ∧ sig.getSign i = 0
          · rw [if_pos hnex]
            exact ⟨Or.inr (Or.inl rfl), fun _ => rfl⟩
          · rw [if_neg hnex]
            simp only []
            have hlist : ∀ x ∈ ((List.range sig.dimensionsUsed.toNat).filter
                (fun i => hasAxis ((a.mask &&& b.mask) % 256) i)).map sig.getSign,
                x = -1 ∨ x = 1 := by
              intro x hx
              rcases List.mem_map.mp hx with ⟨i, hi, hgi⟩
              rcases List.mem_filter.mp hi with ⟨hir, hAi⟩
              have hi8 : i < 8 := by
                by_contra h8
                rw [hasAxis, if_neg h8] at hAi
                exact Bool.false_ne_true hAi
              have hgne : sig.getSign i ≠ 0 := fun h0 => hnex ⟨i, hir, hAi, h0⟩
              rw [← hgi]
              exact pm_of_ne_zero (hsig i hi8) hgne
            set ps : ℤ :=
              if gpSwapCount a.mask b.mask sig.dimensionsUsed.toNat % 2 = 0
                then (1:ℤ) else -1 with hps0
            have hpspm : ps = -1 ∨ ps = 1 := by
              rw [hps0]
              split
              · exact Or.inr rfl
              · exact Or.inl rfl
            have hs0 : a.sign * b.sign * ps = -1 ∨ a.sign * b.sign * ps = 1 :=
              mul_pm_one hprod hpspm
            have hsign2 := mul_pm_one hs0 (prod_pm_one _ hlist)
            split
            · exact ⟨Or.inr (Or.inl rfl), fun _ => rfl⟩
            · rename_i hs_ne
              split
              · exact ⟨hsign2.imp id Or.inr, fun h => absurd h hs_ne⟩
              · exact ⟨hsign2.imp id Or.inr, fun h => absurd h hs_ne⟩

/-- C9, witness: the invariant at `l = [0]`, `a = e1`, `b = e1 ∧ e2` in the
signature `(2, 0, 0)`. -/
theorem blade_wf_invariant_witness :
    ((1 : ℤ) = -1 ∨ (1 : ℤ) = 0 ∨ (1 : ℤ) = 1) ∧ sig200.MetricWF ∧
    (bladeWF (makeBlade [0]) ∧ bladeWF (combineBlade ⟨1, 1⟩ ⟨3, 1⟩) ∧
      bladeWF (geometricProductBlade ⟨1, 1⟩ ⟨3, 1⟩ sig200)) :=
  ⟨Or.inr (Or.inr rfl), by unfold Signature.MetricWF; decide,
    blade_wf_invariant [0] ⟨1, 1⟩ ⟨3, 1⟩ sig200
      (Or.inr (Or.inr rfl)) (Or.inr (Or.inr rfl))
      (by unfold Signature.MetricWF; decide)⟩

/-- Union bound for the blade product's mask on the unit-sign blades the
dense loop feeds it: the result mask is a submask of the union of the input
masks. -/
theorem geometricProductBlade_mask_submask (ma mb : ℕ) (sig : Signature) (n : ℕ)
    (hn8 : n ≤ 8) (hma : ma < 2 ^ n) (hmb : mb < 2 ^ n) :
    (geometricProductBlade ⟨ma, 1⟩ ⟨mb, 1⟩ sig).mask ||| (ma ||| mb) = ma ||| mb := by
  have hxor : ma ^^^ mb < 256 :=
    lt_of_lt_of_le (Nat.xor_lt_two_pow hma hmb) (Nat.pow_le_pow_right (by norm_num) hn8)
  have hunion : (ma ^^^ mb) ||| (ma ||| mb) = ma ||| mb := by
    apply Nat.eq_of_testBit_eq
    intro i
    simp only [Nat.testBit_or, Nat.testBit_xor]
    cases ma.testBit i <;> cases mb.testBit i <;> rfl
  rw [geometricProductBlade]
  split
  · rename_i hfalse
    simp [Blade.isZero] at hfalse
  · split
    · rename_i hsa
      have hma0 : ma = 0 := by
        simp [Blade.isScalarBasis] at hsa
        exact hsa
      subst hma0
      simp
    · split
      · rename_i hsb
        have hmb0 : mb = 0 := by
          simp [Blade.isScalarBasis] at hsb
          exact hsb
        subst hmb0
        simp
      · simp only []
        split
        · simp
        · rw [Nat.mod_eq_of_lt hxor]
          split
          · simp
          · split
            · simp
            · exact hunion

/-- The result mask of the blade product stays below `2^n` when both input
masks do. -/
theorem geometricProductBlade_mask_lt (ma mb : ℕ) (sig : Signature) (n : ℕ)
    (hn8 : n ≤ 8) (hma : ma < 2 ^ n) (hmb : mb < 2 ^ n) :
    (geometricProductBlade ⟨ma, 1⟩ ⟨mb, 1⟩ sig).mask < 2 ^ n := by
  have hxorn : ma ^^^ mb < 2 ^ n := Nat.xor_lt_two_pow hma hmb
  have hxor256 : ma ^^^ mb < 256 :=
    lt_of_lt_of_le hxorn (Nat.pow_le_pow_right (by norm_num) hn8)
  have hpos : 0 < 2 ^ n := pow_pos (by norm_num) n
  rw [geometricProductBlade]
  split
  · exact hpos
  · split
    · exact hmb
    · split
      · exact hma
      · simp only []
        split
        · exact hpos
        · split
          · exact hpos
          · split
            · exact hpos
            · rw [Nat.mod_eq_of_lt hxor256]
              exact hxorn

/-- C10: every dense-storage index read or written by the filtered geometric
product of two multivectors over an algebra with `n ≤ 8` dimensions lies in
`[0, 2^n)` — the loop indices by construction, and the accumulation index
because the blade product of two masks below `2^n` is a submask of their
union — so the `assert(mask < (1 << dimensions))` of `DenseStorage` cannot
fire. -/
theorem gpfAccesses_in_range {K : Type} [CommRing K] [DecidableEq K]
    (A B : Multivector K) (keep : ℕ → ℕ → ℕ → Bool) (alg : Algebra) (n : ℕ)
    (hdims : alg.dimensions.toNat = n) (hn8 : n ≤ 8) :
    (∀ idx ∈ gpfAccesses A B keep alg, idx < 2 ^ n) ∧
    (∀ ma mb : ℕ, ma < 2 ^ n → mb < 2 ^ n →
      (geometricProductBlade ⟨ma, 1⟩ ⟨mb, 1⟩ alg.signature).mask ||| (ma ||| mb) =
        ma ||| mb) := by
  constructor
  · intro idx hidx
    rw [gpfAccesses] at hidx
    simp only [hdims] at hidx
    rcases List.mem_flatMap.mp hidx with ⟨i, hi, hcase⟩
    have hin : i < 2 ^ n := List.mem_range.mp hi
    rcases List.mem_cons.mp hcase with rfl | hrest
    · exact hin
    · by_cases hA0 : A.component i = 0
      · rw [if_pos hA0] at hrest
        simp at hrest
      · rw [if_neg hA0] at hrest
        rcases List.mem_flatMap.mp hrest with ⟨j, hj, hcase2⟩
        have hjn : j < 2 ^ n := List.mem_range.mp hj
        rcases List.mem_cons.mp hcase2 with rfl | hrest2
        · exact hjn
        · by_cases hB0 : B.component j = 0
          · rw [if_pos hB0] at hrest2
            simp at hrest2
          · rw [if_neg hB0] at hrest2
            split at hrest2
            · simp at hrest2
            · split at hrest2
              · simp at hrest2
              · rcases List.mem_cons.mp hrest2 with rfl | hlast
                · exact geometricProductBlade_mask_lt i j alg.signature n hn8 hin hjn
                · rcases List.mem_cons.mp hlast with rfl | hnil
                  · exact geometricProductBlade_mask_lt i j alg.signature n hn8 hin hjn
                  · simp at hnil
  · intro ma mb hma hmb
    exact geometricProductBlade_mask_submask ma mb alg.signature n hn8 hma hmb

/-- C10, witness: the bound at the E3 algebra with the wedge filter applied
to two unit basis multivectors. -/
theorem gpfAccesses_in_range_witness :
    (algE3.dimensions.toNat = 3 ∧ (3 : ℕ) ≤ 8) ∧
    ((∀ idx ∈ gpfAccesses (unitE3 0) (unitE3 1) keepWedgeGrade algE3, idx < 2 ^ 3) ∧
      (∀ ma mb : ℕ, ma < 2 ^ 3 → mb < 2 ^ 3 →
        (geometricProductBlade ⟨ma, 1⟩ ⟨mb, 1⟩ algE3.signature).mask ||| (ma ||| mb) =
          ma ||| mb)) :=
  ⟨⟨by decide, by decide⟩,
    gpfAccesses_in_range (unitE3 0) (unitE3 1) keepWedgeGrade algE3 3
      (by decide) (by decide)⟩

/-- Number of inversions of a list: pairs of positions in the wrong relative
order.  For a duplicate-free list this is the number of adjacent
transpositions any sorting of the list needs, so its parity is the parity of
the sorting permutation. -/
def inversions : List ℤ → ℕ
  | [] => 0
  | x :: t => t.countP (fun y => decide (y < x)) + inversions t

/-- A successful bubble pass permutes its input. -/
theorem bpassGo_perm (c : ℤ) (t : List ℤ) (l : List ℤ) (s : ℕ)
    (h : bpassGo c t = some (l, s)) : l.Perm (c :: t) := by
  induction t generalizing c l s with
  | nil =>
    simp only [bpassGo, Option.some.injEq, Prod.mk.injEq] at h
    rw [← h.1]
  | cons b rest ih =>
    rw [bpassGo] at h
    split at h
    · rename_i hgt
      cases hbp : bpassGo c rest with
      | none => rw [hbp] at h; simp at h
      | some p =>
        obtain ⟨l₁, s₁⟩ := p
        rw [hbp] at h
        simp only [Option.some.injEq, Prod.mk.injEq] at h
        rw [← h.1]
        exact (List.Perm.cons b (ih c l₁ s₁ hbp)).trans (List.Perm.swap c b rest)
    · split at h
      · exact absurd h (by simp)
      · cases hbp : bpassGo b rest with
        | none => rw [hbp] at h; simp at h
        | some p =>
          obtain ⟨l₁, s₁⟩ := p
          rw [hbp] at h
          simp only [Option.some.injEq, Prod.mk.injEq] at h
          rw [← h.1]
          exact List.Perm.cons c (ih b l₁ s₁ hbp)

/-- A successful bubble pass removes exactly its swap count from the
inversion count. -/
theorem bpassGo_inv (c : ℤ) (t : List ℤ) (l : List ℤ) (s : ℕ)
    (h : bpassGo c t = some (l, s)) : s + inversions l = inversions (c :: t) := by
  induction t generalizing c l s with
  | nil =>
    simp only [bpassGo, Option.some.injEq, Prod.mk.injEq] at h
    rw [← h.1, ← h.2]
    rfl
  | cons b rest ih =>
    rw [bpassGo] at h
    split at h
    · rename_i hgt
      cases hbp : bpassGo c rest with
      | none => rw [hbp] at h; simp at h
      | some p =>
        obtain ⟨l₁, s₁⟩ := p
        rw [hbp] at h
        simp only [Option.some.injEq, Prod.mk.injEq] at h
        obtain ⟨hl, hs⟩ := h
        have hih := ih c l₁ s₁ hbp
        have hperm := bpassGo_perm c rest l₁ s₁ hbp
        have hcount : l₁.countP (fun y => decide (y < b)) =
            (c :: rest).countP (fun y => decide (y < b)) := hperm.countP_eq _
        have hnotlt : ¬(c < b) := not_lt_of_gt hgt
        rw [← hl, ← hs]
        rw [show inversions (b :: l₁) =
            l₁.countP (fun y => decide (y < b)) + inversions l₁ from rfl]
        rw [show inversions (c :: b :: rest) =
            (b :: rest).countP (fun y => decide (y < c)) + inversions (b :: rest) from rfl]
        rw [show inversions (b :: rest) =
            rest.countP (fun y => decide (y < b)) + inversions rest from rfl]
        rw [hcount, List.countP_cons, List.countP_cons]
        simp only [decide_eq_true_eq, hnotlt, if_false, hgt, if_pos]
        have hih2 : s₁ + inversions l₁ =
            rest.countP (fun y => decide (y < c)) + inversions rest := by
          rw [hih]
          rfl
        omega
    · split at h
      · exact absurd h (by simp)
      · rename_i hngt hne
        cases hbp : bpassGo b rest with
        | none => rw [hbp] at h; simp at h
        | some p =>
          obtain ⟨l₁, s₁⟩ := p
          rw [hbp] at h
          simp only [Option.some.injEq, Prod.mk.injEq] at h
          obtain ⟨hl, hs⟩ := h
          have hih := ih b l₁ s₁ hbp
          have hperm := bpassGo_perm b rest l₁ s₁ hbp
          have hcount : l₁.countP (fun y => decide (y < c)) =
              (b :: rest).countP (fun y => decide (y < c)) := hperm.countP_eq _
          have hnotlt : ¬(b < c) := fun hb => hngt (by omega)
          rw [← hl, ← hs]
          rw [show inversions (c :: l₁) =
              l₁.countP (fun y => decide (y < c)) + inversions l₁ from rfl]
          rw [show inversions (c :: b :: rest) =
              (b :: rest).countP (fun y => decide (y < c)) + inversions (b :: rest) from rfl]
          rw [hcount]
          have hih2 : s₁ + inversions l₁ = inversions (b :: rest) := hih
          omega

/-- A successful bubble pass ends with a strict maximum in last position. -/
theorem bpassGo_last (c : ℤ) (t : List ℤ) (l : List ℤ) (s : ℕ)
    (h : bpassGo c t = some (l, s)) :
    ∃ l₀ m, l = l₀ ++ [m] ∧ ∀ x ∈ l₀, x < m := by
  induction t generalizing c l s with
  | nil =>
    simp only [bpassGo, Option.some.injEq, Prod.mk.injEq] at h
    exact ⟨[], c, by rw [← h.1]; rfl, by simp⟩
  | cons b rest ih =>
    rw [bpassGo] at h
    split at h
    · rename_i hgt
      cases hbp : bpassGo c rest with
      | none => rw [hbp] at h; simp at h
      | some p =>
        obtain ⟨l₁, s₁⟩ := p
        rw [hbp] at h
        simp only [Option.some.injEq, Prod.mk.injEq] at h
        obtain ⟨l₀, m, hsplit, hlt⟩ := ih c l₁ s₁ hbp
        have hcm : c ≤ m := by
          have hcmem : c ∈ l₁ := (bpassGo_perm c rest l₁ s₁ hbp).mem_iff.mpr
            (List.mem_cons_self c rest)
          rw [hsplit] at hcmem
          rcases List.mem_append.mp hcmem with hc0 | hcm
          · exact le_of_lt (hlt c hc0)
          · simp only [List.mem_singleton] at hcm
            exact le_of_eq hcm
        refine ⟨b :: l₀, m, ?_, ?_⟩
        · rw [← h.1, hsplit]
          rfl
        · intro x hx
          rcases List.mem_cons.mp hx with rfl | hx0
          · exact lt_of_lt_of_le hgt hcm
          · exact hlt x hx0
    · split at h
      · exact absurd h (by simp)
      · rename_i hngt hne
        cases hbp : bpassGo b rest with
        | none => rw [hbp] at h; simp at h
        | some p =>
          obtain ⟨l₁, s₁⟩ := p
          rw [hbp] at h
          simp only [Option.some.injEq, Prod.mk.injEq] at h
          obtain ⟨l₀, m, hsplit, hlt⟩ := ih b l₁ s₁ hbp
          have hbm : b ≤ m := by
            have hbmem : b ∈ l₁ := (bpassGo_perm b rest l₁ s₁ hbp).mem_iff.mpr
              (List.mem_cons_self b rest)
            rw [hsplit] at hbmem
            rcases List.mem_append.mp hbmem with hb0 | hbm
            · exact le_of_lt (hlt b hb0)
            · simp only [List.mem_singleton] at hbm
              exact le_of_eq hbm
          have hcb : c < b := lt_of_le_of_ne (le_of_not_lt hngt) hne
          refine ⟨c :: l₀, m, ?_, ?_⟩
          · rw [← h.1, hsplit]
            rfl
          · intro x hx
            rcases List.mem_cons.mp hx with rfl | hx0
            · exact lt_of_lt_of_le hcb hbm
            · exact hlt x hx0

/-- A duplicate-free list survives the bubble pass. -/
theorem bpassGo_total (c : ℤ) (t : List ℤ) (h : (c :: t).Nodup) :
    ∃ l s, bpassGo c t = some (l, s) := by
  induction t generalizing c with
  | nil => exact ⟨[c], 0, rfl⟩
  | cons b rest ih =>
    have hcb : c ≠ b := by
      intro hEq
      exact (List.nodup_cons.mp h).1 (hEq ▸ List.mem_cons_self b rest)
    rw [bpassGo]
    split
    · have hnd : (c :: rest).Nodup := by
        rcases List.nodup_cons.mp h with ⟨hcm, hbr⟩
        rcases List.nodup_cons.mp hbr with ⟨_, hr⟩
        exact List.nodup_cons.mpr ⟨fun hx => hcm (List.mem_cons_of_mem b hx), hr⟩
      obtain ⟨l, s, hls⟩ := ih c hnd
      rw [hls]
      exact ⟨b :: l, s + 1, rfl⟩
    · have hnd : (b :: rest).Nodup := (List.nodup_cons.mp h).2
      obtain ⟨l, s, hls⟩ := ih b hnd
      rw [hls]
      exact ⟨c :: l, s, rfl⟩

/-- Appending a strict upper bound adds no inversions. -/
theorem inversions_append_max (xs : List ℤ) (m : ℤ) (h : ∀ x ∈ xs, x < m) :
    inversions (xs ++ [m]) = inversions xs := by
  induction xs with
  | nil => rfl
  | cons x t ih =>
    have hxm : x < m := h x (List.mem_cons_self x t)
    rw [show (x :: t) ++ [m] = x :: (t ++ [m]) from rfl]
    rw [show inversions (x :: (t ++ [m])) =
        (t ++ [m]).countP (fun y => decide (y < x)) + inversions (t ++ [m]) from rfl]
    rw [show inversions (x :: t) =
        t.countP (fun y => decide (y < x)) + inversions t from rfl]
    rw [List.countP_append, ih (fun y hy => h y (List.mem_cons_of_mem x hy))]
    have hzero : List.countP (fun y => decide (y < x)) [m] = 0 := by
      simp [List.countP_cons, not_lt_of_gt hxm, le_of_lt hxm]
    omega

/-- Correctness of the bounded bubble sort: with enough passes on a list, a
successful run returns a strictly sorted permutation of the input and counts
exactly its inversions. -/
theorem bubbleGo_sorted (k : ℕ) (l fl : List ℤ) (S : ℕ) (hk : l.length ≤ k + 1)
    (h : bubbleGo k l = some (fl, S)) :
    fl.Perm l ∧ List.Pairwise (· < ·) fl ∧ S = inversions l := by
  induction k generalizing l fl S with
  | zero =>
    simp only [bubbleGo, Option.some.injEq, Prod.mk.injEq] at h
    obtain ⟨hl, hS⟩ := h
    subst hl
    subst hS
    have hlen : l.length = 0 ∨ l.length = 1 := by omega
    refine ⟨List.Perm.refl l, ?_, ?_⟩
    · rcases hlen with h0 | h1
      · rw [List.length_eq_zero.mp h0]
        exact List.Pairwise.nil
      · obtain ⟨a, ha⟩ := List.length_eq_one.mp h1
        rw [ha]
        exact List.pairwise_singleton _ a
    · rcases hlen with h0 | h1
      · rw [List.length_eq_zero.mp h0]
        rfl
      · obtain ⟨a, ha⟩ := List.length_eq_one.mp h1
        rw [ha]
        rfl
  | succ k ih =>
    rw [bubbleGo] at h
    cases hbp : bpass l with
    | none => rw [hbp] at h; simp at h
    | some p =>
      obtain ⟨l', s⟩ := p
      rw [hbp] at h
      simp only [] at h
      have hperm : l'.Perm l := by
        cases l with
        | nil =>
          simp only [bpass, Option.some.injEq, Prod.mk.injEq] at hbp
          rw [← hbp.1]
        | cons a t => exact bpassGo_perm a t l' s hbp
      have hinv : s + inversions l' = inversions l := by
        cases l with
        | nil =>
          simp only [bpass, Option.some.injEq, Prod.mk.injEq] at hbp
          rw [← hbp.1, ← hbp.2]
          rfl
        | cons a t => exact bpassGo_inv a t l' s hbp
      cases hl' : l' with
      | nil =>
        rw [hl'] at h
        simp only [Option.some.injEq, Prod.mk.injEq] at h
        obtain ⟨hfl, hS⟩ := h
        have hlnil : l = [] := by
          rw [hl'] at hperm
          exact (List.Perm.symm hperm).eq_nil
        subst hlnil
        rw [hl'] at hinv
        refine ⟨?_, ?_, ?_⟩
        · rw [← hfl]
        · rw [← hfl]
          exact List.Pairwise.nil
        · rw [← hS]
          have : inversions ([] : List ℤ) = 0 := rfl
          omega
      | cons x xs =>
        rw [hl'] at h
        simp only [] at h
        cases hbg : bubbleGo k (x :: xs).dropLast with
        | none => rw [hbg] at h; simp at h
        | some q =>
          obtain ⟨l'', s'⟩ := q
          rw [hbg] at h
          simp only [Option.some.injEq, Prod.mk.injEq] at h
          obtain ⟨hfl, hS⟩ := h
          have hsplit : ∃ l₀ m, l' = l₀ ++ [m] ∧ ∀ y ∈ l₀, y < m := by
            cases l with
            | nil =>
              simp only [bpass, Option.some.injEq, Prod.mk.injEq] at hbp
              rw [hl'] at hbp
              exact absurd hbp.1 (by simp)
            | cons a t => exact bpassGo_last a t l' s hbp
          obtain ⟨l₀, m, hspl, hmax⟩ := hsplit
          have hxsm : x :: xs = l₀ ++ [m] := by rw [← hl', hspl]
          have hdrop : (x :: xs).dropLast = l₀ := by
            rw [hxsm, List.dropLast_concat]
          have hlast : (x :: xs).getLast (by simp) = m := by
            have h1 : (x :: xs).getLast? = some m := by
              rw [hxsm]
              exact List.getLast?_concat _
            have h2 : (x :: xs).getLast? = some ((x :: xs).getLast (by simp)) :=
              List.getLast?_eq_getLast _ (by simp)
            rw [h1] at h2
            exact (Option.some.inj h2).symm
          have hlen0 : l₀.length ≤ k + 1 := by
            have h1 : l'.length = l.length := hperm.length_eq
            have h2 : l'.length = l₀.length + 1 := by rw [hspl]; simp
            omega
          rw [hdrop] at hbg
          obtain ⟨hp2, hs2, hi2⟩ := ih l₀ l'' s' hlen0 hbg
          have hflval : fl = l'' ++ [m] := by rw [← hfl, hlast]
          refine ⟨?_, ?_, ?_⟩
          · rw [hflval]
            have hq1 : (l'' ++ [m]).Perm (l₀ ++ [m]) := hp2.append_right [m]
            rw [← hspl] at hq1
            exact hq1.trans hperm
          · rw [hflval]
            apply List.pairwise_append.mpr
            refine ⟨hs2, List.pairwise_singleton _ m, ?_⟩
            intro y hy z hz
            rw [List.mem_singleton.mp hz]
            exact hmax y (hp2.mem_iff.mp hy)
          · have hinv2 : inversions l' = inversions l₀ := by
              rw [hspl]
              exact inversions_append_max l₀ m hmax
            omega

/-- The bounded bubble sort succeeds on every duplicate-free list. -/
theorem bubbleGo_total (k : ℕ) (l : List ℤ) (h : l.Nodup) :
    ∃ fl S, bubbleGo k l = some (fl, S) := by
  induction k generalizing l with
  | zero => exact ⟨l, 0, rfl⟩
  | succ k ih =>
    rw [bubbleGo]
    cases l with
    | nil => exact ⟨[], 0, rfl⟩
    | cons a t =>
      obtain ⟨l', s, hbp⟩ := bpassGo_total a t h
      rw [show bpass (a :: t) = bpassGo a t from rfl, hbp]
      simp only []
      cases hl' : l' with
      | nil => exact ⟨[], s, rfl⟩
      | cons x xs =>
        have hperm := bpassGo_perm a t l' s hbp
        rw [hl'] at hperm
        have hnd' : (x :: xs).Nodup := hperm.nodup_iff.mpr h
        have hnd0 : (x :: xs).dropLast.Nodup :=
          List.Nodup.sublist (List.dropLast_sublist _) hnd'
        obtain ⟨fl, S2, hbg⟩ := ih (x :: xs).dropLast hnd0
        simp only []
        rw [hbg]
        exact ⟨fl ++ [(x :: xs).getLast (by simp)], s + S2, rfl⟩

/-- Replacing each OR operand by its truncation mod 256 does not change the
mask fold when every axis index is below 8. -/
theorem foldl_or_mod_eq (l : List ℤ) (h : ∀ x ∈ l, x.toNat < 8) (z : ℕ) :
    l.foldl (fun m idx => m ||| ((1 <<< idx.toNat) % 256)) z =
      l.foldl (fun m idx => m ||| (1 <<< idx.toNat)) z := by
  induction l generalizing z with
  | nil => rfl
  | cons x t ih =>
    have hx : x.toNat < 8 := h x (List.mem_cons_self x t)
    have hmod : (1 <<< x.toNat) % 256 = 1 <<< x.toNat := by
      rw [Nat.one_shiftLeft]
      exact Nat.mod_eq_of_lt
        (lt_of_lt_of_le (Nat.pow_lt_pow_right (by norm_num) hx) (by norm_num))
    rw [List.foldl_cons, List.foldl_cons, hmod]
    exact ih (fun y hy => h y (List.mem_cons_of_mem x hy)) _

/-- The mask fold is invariant under permutation of the axis list. -/
theorem foldl_or_perm (f : ℤ → ℕ) {l₁ l₂ : List ℤ} (hp : l₁.Perm l₂) (z : ℕ) :
    l₁.foldl (fun m idx => m ||| f idx) z = l₂.foldl (fun m idx => m ||| f idx) z := by
  haveI : Std.Commutative (fun (a b : ℕ) => a ||| b) := ⟨Nat.or_comm⟩
  haveI : RightCommutative (fun (m : ℕ) (idx : ℤ) => m ||| f idx) :=
    ⟨fun b a₁ a₂ => by
      show (b ||| f a₁) ||| f a₂ = (b ||| f a₂) ||| f a₁
      rw [Nat.or_assoc, Nat.or_assoc, Nat.or_comm (f a₁) (f a₂)]⟩
  exact hp.foldl_eq z

/-- C5: `makeBlade` on an axis-index list of length at most 8 with entries in
`[0, n)`, `n ≤ 8`.  An empty list yields the unit scalar basis; a duplicated
entry yields the zero blade; otherwise the mask is the OR of `1 << idx` over
the entries and the sign is `+1` exactly when the number of inversions of the
list — the parity of the permutation that sorts it ascending — is even. -/
theorem makeBlade_spec (l : List ℤ) (n : ℕ) (hn8 : n ≤ 8) (hlen : l.length ≤ 8)
    (hentries : ∀ x ∈ l, 0 ≤ x ∧ x < (n : ℤ)) :
    makeBlade l =
      if l.length = 0 then ⟨0, 1⟩
      else if ¬ l.Nodup then ⟨0, 0⟩
      else ⟨l.foldl (fun m idx => m ||| (1 <<< idx.toNat)) 0,
            if inversions l % 2 = 0 then 1 else -1⟩ := by
  have htoNat : ∀ x ∈ l, x.toNat < 8 := by
    intro x hx
    have h1 := (hentries x hx).1
    have h2 := (hentries x hx).2
    omega
  by_cases h0 : l.length = 0
  · rw [makeBlade, if_pos h0, if_pos h0]
  · rw [makeBlade, if_neg h0, if_neg h0, if_neg (by omega : ¬ l.length > 8)]
    by_cases hnd : l.Nodup
    · rw [if_neg (not_not_intro hnd)]
      obtain ⟨fl, S, hbg⟩ := bubbleGo_total (l.length - 1) l hnd
      obtain ⟨hperm, hsorted, hSinv⟩ :=
        bubbleGo_sorted (l.length - 1) l fl S (by omega) hbg
      rw [hbg]
      simp only []
      have hmask : fl.foldl (fun m idx => m ||| ((1 <<< idx.toNat) % 256)) 0 =
          l.foldl (fun m idx => m ||| (1 <<< idx.toNat)) 0 := by
        rw [foldl_or_mod_eq fl (fun x hx => htoNat x (hperm.mem_iff.mp hx)) 0]
        exact foldl_or_perm _ hperm 0
      rw [hmask, hSinv]
    · rw [if_pos hnd]
      cases hbg : bubbleGo (l.length - 1) l with
      | none => rfl
      | some p =>
        obtain ⟨fl, S⟩ := p
        obtain ⟨hperm, hsorted, _⟩ :=
          bubbleGo_sorted (l.length - 1) l fl S (by omega) hbg
        have hndl : l.Nodup :=
          hperm.nodup_iff.mp (List.Pairwise.imp (fun h => ne_of_lt h) hsorted)
        exact absurd hndl hnd

/-- C5, witness: the characterisation at the list `[1, 0]` with `n = 2`; the
result is `e1 ∧ e2` reversed, i.e. mask `0b11` with sign `-1`. -/
theorem makeBlade_spec_witness :
    ((2 : ℕ) ≤ 8 ∧ ([1, 0] : List ℤ).length ≤ 8 ∧
      (∀ x ∈ ([1, 0] : List ℤ), 0 ≤ x ∧ x < ((2 : ℕ) : ℤ))) ∧
    makeBlade [1, 0] =
      (if ([1, 0] : List ℤ).length = 0 then ⟨0, 1⟩
      else if ¬ ([1, 0] : List ℤ).Nodup then ⟨0, 0⟩
      else ⟨([1, 0] : List ℤ).foldl (fun m idx => m ||| (1 <<< idx.toNat)) 0,
            if inversions [1, 0] % 2 = 0 then 1 else -1⟩ : Blade) :=
  ⟨⟨by decide, by decide, by decide⟩,
    makeBlade_spec [1, 0] 2 (by decide) (by decide) (by decide)⟩

/-- The numeric policy (`policies.h`): the shared near-zero tolerance
`epsilon() = 1e-6`. -/
noncomputable def epsilon : ℝ := 1 / 1000000

/-- A rotor (`rotor.h`): a wrapper around a multivector expected to be a unit
even versor (not structurally enforced). -/
structure Rotor where
  mv : Multivector ℝ

/-- The in-place scaling loop shared by `Rotor::normalize` and
`Rotor::fromPlaneAngle`: multiply the first `count` stored coefficients by a
factor. -/
noncomputable def scaleStorageLoop (A : Multivector ℝ) (factor : ℝ) (count : ℕ) :
    Multivector ℝ :=
  (List.range count).foldl (fun R i => R.setComponent i (R.component i * factor)) A

/-- `Rotor::normalize`: fail on a missing algebra, compute the scalar part of
`R ~R`, fail (`SingularOperand`) when its magnitude is within `epsilon` of
zero, otherwise scale every coefficient by the inverse square root. -/
noncomputable def Rotor.normalize (rot : Rotor) : Except GAErr Rotor :=
  match rot.mv.alg with
  | none => .error .invalidArgument
  | some alg =>
    let rrev := reverse rot.mv
    match geometricProduct rot.mv rrev with
    | .error e => .error e
    | .ok norm2mv =>
      let s := norm2mv.component 0
      if |s| ≤ epsilon then .error .singularOperand
      else
        let invSqrt := 1 / Real.sqrt |s|
        .ok ⟨scaleStorageLoop rot.mv invSqrt (2 ^ alg.dimensions.toNat)⟩

/-- `Rotor::fromBivectorAngle`: build `cos(θ/2)` in the scalar slot, add
`-sin(θ/2)` times every nonzero coefficient of `B`, then normalise. -/
noncomputable def Rotor.fromBivectorAngle (B : Multivector ℝ) (theta : ℝ) :
    Except GAErr Rotor :=
  match B.alg with
  | none => .error .invalidArgument
  | some alg =>
    let n := 2 ^ alg.dimensions.toNat
    let c := Real.cos (theta * 0.5)
    let r0 := (zeroMV alg : Multivector ℝ).setComponent 0 c
    let s := Real.sin (theta * 0.5)
    let r := (List.range n).foldl (fun R i =>
      if B.coeffs i ≠ 0 then R.setComponent i (R.component i + (-s) * B.coeffs i)
      else R) r0
    Rotor.normalize ⟨r⟩

/-- `Rotor::fromPlaneAngle`: from the operands' shared algebra form
`B = a ∧ b`, take the scalar of the Hestenes inner product `B · B`, fail
(`SingularOperand`) when its magnitude is within `epsilon`, otherwise scale
`B` by the inverse square root and delegate to `fromBivectorAngle`. -/
noncomputable def Rotor.fromPlaneAngle (a b : Multivector ℝ) (theta : ℝ) :
    Except GAErr Rotor :=
  if a.alg = none ∨ b.alg = none ∨ a.alg ≠ b.alg then .error .invalidArgument
  else
    match a.alg with
    | none => .error .invalidArgument
    | some alg =>
      match wedge a b with
      | .error e => .error e
      | .ok B =>
        match inner B B with
        | .error e => .error e
        | .ok BB =>
          let norm2 := BB.component 0
          if |norm2| ≤ epsilon then .error .singularOperand
          else
            let invMag := 1 / Real.sqrt |norm2|
            Rotor.fromBivectorAngle
              (scaleStorageLoop B invMag (2 ^ alg.dimensions.toNat)) theta

/-- The quantity the claim calls `s`: the scalar component of the Hestenes
inner product `(a ∧ b) · (a ∧ b)`, computed with the source's `wedge` and
`inner` (propagating their failures). -/
noncomputable def planeNormSq (a b : Multivector ℝ) : Except GAErr ℝ :=
  match wedge a b with
  | .error e => .error e
  | .ok B =>
    match inner B B with
    | .error e => .error e
    | .ok BB => .ok (BB.component 0)

/-- The Euclidean line signature `(1, 0, 0)`. -/
def sig100 : Signature := (Signature.ofCounts 1 0 0 true).getD sigFallback

/-- The one-dimensional Euclidean algebra. -/
def algP1 : Algebra := Algebra.ofSignature sig100

/-- The scalar multivector `2` in that algebra. -/
noncomputable def sc2 : Multivector ℝ := ⟨some algP1, fun k => if k = 0 then 2 else 0⟩

/-- Value of `sc2 ∧ sc2`: the scalar `4`. -/
noncomputable def c7B : Multivector ℝ := ⟨some algP1, fun k => if k = 0 then 4 else 0⟩

/-- Value of `(sc2 ∧ sc2) · (sc2 ∧ sc2)`: the scalar `16`. -/
noncomputable def c7BB : Multivector ℝ := ⟨some algP1, fun k => if k = 0 then 16 else 0⟩

/-- Evaluation: the wedge of the scalar `2` with itself is the scalar `4`. -/
theorem c7_wedge : wedge sc2 sc2 = .ok c7B := by
  rw [wedge, geometricProductFiltered]
  norm_num [sc2, Multivector.component, Multivector.setComponent, zeroMV,
    keepWedgeGrade, getGrade, popcount, geometricProductBlade, Blade.isZero,
    Blade.isScalarBasis,
    show List.range (2 ^ algP1.dimensions.toNat) = [0, 1] from rfl,
    List.foldl_cons, List.foldl_nil, c7B]

/-- Evaluation: the Hestenes inner product of the scalar `4` with itself is
the scalar `16`. -/
theorem c7_inner : inner c7B c7B = .ok c7BB := by
  rw [inner, geometricProductFiltered]
  norm_num [c7B, Multivector.component, Multivector.setComponent, zeroMV,
    keepInnerGrade, getGrade, popcount, geometricProductBlade, Blade.isZero,
    Blade.isScalarBasis,
    show List.range (2 ^ algP1.dimensions.toNat) = [0, 1] from rfl,
    List.foldl_cons, List.foldl_nil, c7BB]

/-- Evaluation: the claim's quantity `s` at `a = b = 2` is `16`. -/
theorem c7_planeNorm : planeNormSq sc2 sc2 = .ok 16 := by
  rw [planeNormSq, c7_wedge]
  simp only []
  rw [c7_inner]
  simp only []
  norm_num [c7BB, Multivector.component]

/-- The bivector-slot input `fromPlaneAngle` hands to `fromBivectorAngle`:
the scalar `1`. -/
noncomputable def c7Bn : Multivector ℝ := ⟨some algP1, fun k => if k = 0 then 1 else 0⟩

/-- Evaluation: scaling the scalar `4` by `1/sqrt(16)` gives the scalar `1`. -/
theorem c7_scale :
    scaleStorageLoop c7B (1 / Real.sqrt |(16 : ℝ)|) (2 ^ algP1.dimensions.toNat) =
      c7Bn := by
  have h16 : Real.sqrt 16 = 4 := by
    rw [show (16 : ℝ) = 4 ^ 2 by norm_num]
    exact Real.sqrt_sq (by norm_num)
  rw [scaleStorageLoop]
  norm_num [c7B, Multivector.component, Multivector.setComponent,
    show List.range (2 ^ algP1.dimensions.toNat) = [0, 1] from rfl,
    List.foldl_cons, List.foldl_nil, h16, c7Bn]
  funext k
  by_cases hk : k = 0 <;> simp [hk]

/-- Evaluation: `fromBivectorAngle` on the scalar `1` with angle `π/2` fails
in `normalize`: the built rotor is `cos(π/4) - sin(π/4)`, which is exactly
zero, so the scalar part of `R ~R` is `0 ≤ ε`. -/
theorem c7_fba :
    Rotor.fromBivectorAngle c7Bn (Real.pi / 2) = .error .singularOperand := by
  have h0 : Real.cos (Real.pi / 2 * (1 / 2)) + -Real.sin (Real.pi / 2 * (1 / 2)) = 0 := by
    rw [show Real.pi / 2 * (1 / 2 : ℝ) = Real.pi / 4 by ring,
      Real.cos_pi_div_four, Real.sin_pi_div_four]
    ring
  rw [Rotor.fromBivectorAngle]
  norm_num [c7Bn, Multivector.component, Multivector.setComponent, zeroMV,
    show List.range (2 ^ algP1.dimensions.toNat) = [0, 1] from rfl,
    List.foldl_cons, List.foldl_nil, h0,
    Rotor.normalize, reverse, signedCopyLoop, geometricProduct,
    geometricProductBlade, Blade.isZero, Blade.isScalarBasis, getGrade, popcount,
    epsilon]

/-- C7, counterexample: `fromPlaneAngle` can fail with SingularOperand even
though `|s| > ε`.  With `a = b = 2` (scalars) in the algebra `(1,0,0)` and
`θ = π/2`: `s = 16`, far above `ε`, yet the construction fails, because the
delegated `fromBivectorAngle`/`normalize` finds the rotor
`cos(π/4) - sin(π/4) = 0` and reports SingularOperand.  So failure is not
equivalent to `|s| ≤ ε`. -/
theorem fromPlaneAngle_fails_despite_large_norm :
    planeNormSq sc2 sc2 = .ok 16 ∧ ¬ (|(16 : ℝ)| ≤ epsilon) ∧
    Rotor.fromPlaneAngle sc2 sc2 (Real.pi / 2) = .error .singularOperand := by
  refine ⟨c7_planeNorm, by norm_num [epsilon], ?_⟩
  rw [Rotor.fromPlaneAngle]
  rw [if_neg (by simp [sc2])]
  have halg : sc2.alg = some algP1 := rfl
  rw [halg]
  simp only []
  rw [c7_wedge]
  simp only []
  rw [c7_inner]
  simp only []
  have hc : c7BB.component 0 = 16 := by norm_num [c7BB, Multivector.component]
  rw [hc]
  rw [if_neg (by norm_num [epsilon])]
  rw [c7_scale]
  exact c7_fba

/-- C7, amended: for multivectors `a`, `b` sharing an algebra whose wedge and
Hestenes inner product succeed, `Rotor::fromPlaneAngle(a, b, θ)` fails with
SingularOperand when `|s| ≤ ε` (`s` the scalar of `(a∧b)·(a∧b)`), and
otherwise DELEGATES to `fromBivectorAngle` on `B` scaled by `1/sqrt(|s|)` —
which can itself still fail (e.g. SingularOperand inside `normalize`), so
`|s| ≤ ε` is sufficient but not necessary for failure. -/
theorem fromPlaneAngle_branches (a b : Multivector ℝ) (theta : ℝ) (alg : Algebra)
    (hA : a.alg = some alg) (hB : b.alg = some alg)
    (B : Multivector ℝ) (hW : wedge a b = .ok B)
    (BB : Multivector ℝ) (hI : inner B B = .ok BB) :
    Rotor.fromPlaneAngle a b theta =
      if |BB.component 0| ≤ epsilon then .error .singularOperand
      else Rotor.fromBivectorAngle
        (scaleStorageLoop B (1 / Real.sqrt |BB.component 0|)
          (2 ^ alg.dimensions.toNat)) theta := by
  rw [Rotor.fromPlaneAngle, if_neg (by simp [hA, hB])]
  rw [hA]
  simp only []
  rw [hW]
  simp only []
  rw [hI]

/-- Witness for the amended C7 theorem at `a = b = 2` in the algebra
`(1,0,0)` with `θ = 0`. -/
theorem fromPlaneAngle_branches_witness :
    Rotor.fromPlaneAngle sc2 sc2 0 =
      if |c7BB.component 0| ≤ epsilon then .error .singularOperand
      else Rotor.fromBivectorAngle
        (scaleStorageLoop c7B (1 / Real.sqrt |c7BB.component 0|)
          (2 ^ algP1.dimensions.toNat)) 0 :=
  fromPlaneAngle_branches sc2 sc2 0 algP1 rfl rfl c7B c7_wedge c7BB c7_inner

end GASmith
